import Mathlib

/-!
Shallow embedding of the `priority-queue` C++ library (namespaces `heap` and
`priority_queue`): the abstract array-backed `Heap` with its `BinaryHeap` and
`KHeap` realizations, and the `PriorityQueue` layer that keeps a key map and an
index map synchronized with the heap through an overridden `swap_nodes` hook.

Machine integers (`std::size_t`) are modelled as `Nat`; the one place where
unsigned wraparound is observable (`KHeap::is_leaf` computing `(size - 2) / K`
when `size < 2`) is modelled explicitly with arithmetic modulo `2 ^ 64`.
`std::vector<T>` is a `List V`, `std::unordered_map` is an association list
with unique keys, `assert`/`std::out_of_range` failures are `Option` results.
Loops are modelled with an explicit fuel argument that strictly bounds the
number of iterations; the sources' loop variants (the fixed index strictly
increases below `size` in `heapify_down`, strictly decreases in `heapify_up`)
guarantee the fuel chosen at each call site is never exhausted.
-/

set_option linter.unusedSectionVars false
set_option linter.unusedVariables false

namespace Heaplib

variable {V : Type} [DecidableEq V] [Inhabited V]
variable {κ : Type} [LinearOrder κ] [Inhabited κ]

/-- `nodes.at(i)` for an index that the source guards to be in range. -/
def nget (ns : List V) (i : Nat) : V := ns.getD i default

/-- `std::swap(nodes.at(i), nodes.at(j))`: exchange two positions of the
backing vector (`Heap::swap_nodes`). -/
def swapL (ns : List V) (i j : Nat) : List V :=
  (ns.set i (nget ns j)).set j (nget ns i)

/-- Lookup in an `std::unordered_map` modelled as an association list. -/
def alookup {α : Type} : List (V × α) → V → Option α
  | [], _ => none
  | (k, a) :: t, x => if k = x then some a else alookup t x

/-- Assignment through `map.at(x) = a`: overwrites the value of a key that is
already present (an absent key would throw; callers only use it on present
keys, on an absent key this model leaves the map unchanged). -/
def aset {α : Type} : List (V × α) → V → α → List (V × α)
  | [], _, _ => []
  | (k, b) :: t, x, a => if k = x then (k, a) :: t else (k, b) :: aset t x a

/-- `map[x] = a` (`operator[]` insert-or-assign). -/
def ains {α : Type} (m : List (V × α)) (x : V) (a : α) : List (V × α) :=
  if (alookup m x).isSome then aset m x a else m ++ [(x, a)]

/-- `map.erase(x)`. -/
def aerase {α : Type} : List (V × α) → V → List (V × α)
  | [], _ => []
  | (k, b) :: t, x => if k = x then t else (k, b) :: aerase t x

/-- The keys currently stored in a map. -/
def mapKeys {α : Type} (m : List (V × α)) : List V := m.map Prod.fst

/-- `key_map.at(v)` as read by the comparator closures; only evaluated on
elements present in the map. -/
def kGet (m : List (V × κ)) (v : V) : κ := (alookup m v).getD default

/-- `BinaryHeap::left`: `(i << 1) + 1`. -/
def bLeft (i : Nat) : Nat := 2 * i + 1

/-- `BinaryHeap::right`: `(i << 1) + 2`. -/
def bRight (i : Nat) : Nat := 2 * i + 2

/-- `BinaryHeap::parent`: `(i - 1) >> 1` (only invoked with `i > 0`). -/
def bParent (i : Nat) : Nat := (i - 1) / 2

/-- `BinaryHeap::is_leaf`: `i >= (size >> 1) + 1`. -/
def bIsLeaf (len i : Nat) : Bool := decide (len / 2 + 1 ≤ i)

/-- `std::size_t` subtraction `a - b` for `b ≤ 2 ^ 64`: wraps modulo `2 ^ 64`. -/
def sub64 (a b : Nat) : Nat := (a + 2 ^ 64 - b) % 2 ^ 64

/-- `KHeap::is_leaf`: `i > (size - 2) / K`, where `size - 2` is `size_t`
arithmetic and wraps around when `size < 2`. -/
def kIsLeaf (K len i : Nat) : Bool := decide (sub64 len 2 / K < i)

/-- `KHeap::child`: `(K * i) + j + 1`. -/
def kChild (K i j : Nat) : Nat := K * i + j + 1

/-- `KHeap::parent`: `(i - 1) / K` (only invoked with `i > 0`). -/
def kParent (K i : Nat) : Nat := (i - 1) / K

/-- One pass of the `comp_est` selection of `heapify_down` over the arity-`A`
children `A*i+1 .. A*i+A` of node `i`: `KHeap`'s `for (j = 0; j < K; ++j)`
loop; `BinaryHeap` computes the same value with two `if`s over `left`/`right`
(see `bPick` and the theorem equating it with `pick 2`). -/
def pickStep (A : Nat) (comp : V → V → Bool) (ns : List V) (i est j : Nat) :
    Nat :=
  let son := A * i + j + 1
  if son < ns.length && comp (nget ns est) (nget ns son) then son else est

def pick (A : Nat) (comp : V → V → Bool) (ns : List V) (i : Nat) : Nat :=
  (List.range A).foldl (pickStep A comp ns i) i

/-- `BinaryHeap::heapify_down`'s body computing `comp_est` literally: first the
`left` test against `nodes[i]`, then the `right` test against the current
`comp_est`. -/
def bPick (comp : V → V → Bool) (ns : List V) (i : Nat) : Nat :=
  let len := ns.length
  let l := bLeft i
  let r := bRight i
  let c1 := if l < len && comp (nget ns i) (nget ns l) then l else i
  if r < len && comp (nget ns c1) (nget ns r) then r else c1

/-- `heapify_down` (`BinaryHeap` and `KHeap` share this loop shape, with the
arity, the `is_leaf` test and the virtual `swap_nodes` as customization
points): while `i` is not a leaf, select the comparator-preferred node among
`i` and its in-range children; stop if it is `i`, else swap and descend.
The fuel strictly bounds the iteration count; the fixed index strictly
increases and stays below `size`, so `size + 1` fuel is never exhausted. -/
def siftF (A : Nat) (isLf : Nat → Nat → Bool) (comp : V → V → Bool) :
    Nat → List V → Nat → List V
  | 0, ns, _ => ns
  | fuel + 1, ns, i =>
    if isLf ns.length i then ns
    else
      let est := pick A comp ns i
      if est = i then ns else siftF A isLf comp fuel (swapL ns i est) est

/-- `Heap::heapify_up`: while `i > 0` and `comp(nodes.at(parent(i)),
nodes.at(i))`, swap with the parent `(i - 1) / A` and continue from it.
Fuel `i + 1` is never exhausted since the index strictly decreases. -/
def upF (A : Nat) (comp : V → V → Bool) : Nat → List V → Nat → List V
  | 0, ns, _ => ns
  | fuel + 1, ns, i =>
    if 0 < i ∧ comp (nget ns ((i - 1) / A)) (nget ns i) = true then
      upF A comp fuel (swapL ns i ((i - 1) / A)) ((i - 1) / A)
    else ns

/-- `build_heap`'s loop `for (i = size/A + 1; i > 0; --i) heapify_down(i-1)`
(`BinaryHeap` writes `size/2` as `size >> 1`). -/
def buildAux (A : Nat) (isLf : Nat → Nat → Bool) (comp : V → V → Bool) :
    Nat → List V → List V
  | 0, ns => ns
  | n + 1, ns => buildAux A isLf comp n (siftF A isLf comp (ns.length + 1) ns n)

/-- `build_heap` applied to the initial vector. -/
def buildHeapL (A : Nat) (isLf : Nat → Nat → Bool) (comp : V → V → Bool)
    (ns : List V) : List V :=
  buildAux A isLf comp (ns.length / A + 1) ns

/-- `Heap` constructor: run `build_heap` unless the `IsAlreadyHeap` flag is
set (`Heap::init`). -/
def mkHeapL (A : Nat) (isLf : Nat → Nat → Bool) (comp : V → V → Bool)
    (already : Bool) (ns : List V) : List V :=
  if already then ns else buildHeapL A isLf comp ns

/-- Body of `Heap::pop` after the assertion: overwrite position 0 with the
last element, shrink the vector, then `heapify_down(0)` unconditionally. -/
def popCoreL (A : Nat) (isLf : Nat → Nat → Bool) (comp : V → V → Bool)
    (ns : List V) : List V :=
  siftF A isLf comp (ns.length + 1) ((ns.set 0 (ns.getLastD default)).dropLast) 0

/-- `Heap::pop` with its `assert(size() > 0)` modelled as `Option`. -/
def popL? (A : Nat) (isLf : Nat → Nat → Bool) (comp : V → V → Bool)
    (ns : List V) : Option (List V) :=
  if ns.isEmpty then none else some (popCoreL A isLf comp ns)

/-- `Heap::top` with its `assert(size() > 0)` modelled as `Option`. -/
def topL? (ns : List V) : Option V :=
  if ns.isEmpty then none else some (nget ns 0)

/-- `Heap::push`: append at index `size()`, then `heapify_up` from there. -/
def pushL (A : Nat) (comp : V → V → Bool) (v : V) (ns : List V) : List V :=
  upF A comp (ns.length + 1) (ns ++ [v]) ns.length

/-- The heap ordering invariant: for every non-root position `c` the parent
does not strictly lose to it, `comp(nodes[parent c], nodes[c])` is `false`
(`parent c = (c - 1) / A`). -/
def heapProp (A : Nat) (comp : V → V → Bool) (ns : List V) : Prop :=
  ∀ c, c < ns.length → 0 < c → comp (nget ns ((c - 1) / A)) (nget ns c) = false

instance (A : Nat) (comp : V → V → Bool) (ns : List V) :
    Decidable (heapProp A comp ns) := by
  unfold heapProp; infer_instance

/-- Repeatedly `top()` then `pop()` until empty, listing the extracted
elements (the usage loop of the README and the test suite). -/
def popAllF (A : Nat) (isLf : Nat → Nat → Bool) (comp : V → V → Bool) :
    Nat → List V → List V
  | 0, _ => []
  | fuel + 1, ns =>
    if ns.isEmpty then []
    else nget ns 0 :: popAllF A isLf comp fuel (popCoreL A isLf comp ns)

/-- `popAllF` with enough fuel to drain the heap. -/
def popAllL (A : Nat) (isLf : Nat → Nat → Bool) (comp : V → V → Bool)
    (ns : List V) : List V :=
  popAllF A isLf comp ns.length ns

/-- The properties of the strict-order comparators the factories produce
(`std::greater`/`std::less` on keys): asymmetry, transitivity, and
transitivity of the negation (totality of the non-strict dual). -/
structure CompOK (comp : V → V → Bool) : Prop where
  asymm : ∀ a b, comp a b = true → comp b a = false
  trans : ∀ a b c, comp a b = true → comp b c = true → comp a c = true
  ntrans : ∀ a b c, comp a b = false → comp b c = false → comp a c = false

/-- `Desc A i c`: position `c` lies in the subtree rooted at `i` of the
complete arity-`A` tree (children of `p` are `A*p+1 .. A*p+A`). -/
inductive Desc (A : Nat) : Nat → Nat → Prop
  | refl (i : Nat) : Desc A i i
  | node (i j : Nat) {c : Nat} (hj : j < A) (h : Desc A (A * i + j + 1) c) :
      Desc A i c

/-- Soundness of a leaf test at a given heap size: a position it classifies as
a leaf really has no child in range. Both `BinaryHeap::is_leaf` and (within
the `size_t` range) `KHeap::is_leaf` satisfy this; it is exactly what makes
the early exit of `heapify_down` behaviour-preserving. -/
def LeafSoundAt (A : Nat) (isLf : Nat → Nat → Bool) (len : Nat) : Prop :=
  ∀ i, isLf len i = true → ¬(A * i + 1 < len)

/-- The heap invariant restricted to the subtree rooted at `i`. -/
def subHeap (A : Nat) (comp : V → V → Bool) (ns : List V) (i : Nat) : Prop :=
  ∀ c, c < ns.length → Desc A i c → c ≠ i →
    comp (nget ns ((c - 1) / A)) (nget ns c) = false

/-- The `PriorityQueue` state: the inherited heap vector plus the two
element-keyed maps. -/
structure PQS (κ V : Type) where
  nodes : List V
  kmap : List (V × κ)
  imap : List (V × Nat)

/-- The comparator the factories bind to the live key map:
`min_heap_comp_factory` yields `key_map.at(a) > key_map.at(b)`,
`max_heap_comp_factory` yields `key_map.at(a) < key_map.at(b)`. -/
def pqComp (isMin : Bool) (m : List (V × κ)) (a b : V) : Bool :=
  if isMin then decide (kGet m b < kGet m a) else decide (kGet m a < kGet m b)

/-- `PriorityQueue::swap_nodes`: swap the two elements' entries in
`index_map`, then delegate to the base `Heap::swap_nodes`. -/
def pqSwap (st : PQS κ V) (i j : Nat) : PQS κ V :=
  let ni := nget st.nodes i
  let nj := nget st.nodes j
  let vi := (alookup st.imap ni).getD 0
  let vj := (alookup st.imap nj).getD 0
  { st with imap := aset (aset st.imap ni vj) nj vi,
            nodes := swapL st.nodes i j }

/-- `heapify_down` as it runs inside a `PriorityQueue`: the same loop as
`siftF`, with the overridden `swap_nodes` keeping `index_map` in sync. -/
def pqSiftF (A : Nat) (isLf : Nat → Nat → Bool) (comp : V → V → Bool) :
    Nat → PQS κ V → Nat → PQS κ V
  | 0, st, _ => st
  | fuel + 1, st, i =>
    if isLf st.nodes.length i then st
    else
      let est := pick A comp st.nodes i
      if est = i then st else pqSiftF A isLf comp fuel (pqSwap st i est) est

/-- `heapify_up` as it runs inside a `PriorityQueue`. -/
def pqUpF (A : Nat) (comp : V → V → Bool) : Nat → PQS κ V → Nat → PQS κ V
  | 0, st, _ => st
  | fuel + 1, st, i =>
    if 0 < i ∧ comp (nget st.nodes ((i - 1) / A)) (nget st.nodes i) = true then
      pqUpF A comp fuel (pqSwap st i ((i - 1) / A)) ((i - 1) / A)
    else st

/-- `PriorityQueue::build_key_map`'s loop: `local_key_map[node] = keys[index]`
over the node list (`keys[index]` unchecked, guarded by the length assert). -/
def buildKMgo (keys : List κ) : List (V × κ) → Nat → List V → List (V × κ)
  | m, _, [] => m
  | m, idx, v :: t => buildKMgo keys (ains m v (keys.getD idx default)) (idx + 1) t

/-- `PriorityQueue::build_key_map` after its length assertion. -/
def buildKeyMap (keys : List κ) (vals : List V) : List (V × κ) :=
  buildKMgo keys [] 0 vals

/-- `PriorityQueue::build_index_map`: `local_index_map[node] = index`. -/
def buildIMgo : List (V × Nat) → Nat → List V → List (V × Nat)
  | m, _, [] => m
  | m, idx, v :: t => buildIMgo (ains m v idx) (idx + 1) t

/-- `PriorityQueue::build_index_map` over the node list. -/
def buildIndexMap (vals : List V) : List (V × Nat) :=
  buildIMgo [] 0 vals

/-- `build_heap` running inside a `PriorityQueue` (virtual `swap_nodes`
dispatches to the map-maintaining override). -/
def pqBuildAux (A : Nat) (isLf : Nat → Nat → Bool) (comp : V → V → Bool) :
    Nat → PQS κ V → PQS κ V
  | 0, st => st
  | n + 1, st =>
      pqBuildAux A isLf comp n (pqSiftF A isLf comp (st.nodes.length + 1) st n)

/-- The `PriorityQueue` constructor after the length assertion: build both
maps from the parallel sequences, bind the comparator to the key map, then run
`build_heap` unless `IsAlreadyHeap` is set. -/
def pqMakeCore (A : Nat) (isLf : Nat → Nat → Bool) (isMin : Bool)
    (already : Bool) (keys : List κ) (vals : List V) : PQS κ V :=
  let st : PQS κ V := ⟨vals, buildKeyMap keys vals, buildIndexMap vals⟩
  if already then st
  else pqBuildAux A isLf (pqComp isMin st.kmap) (vals.length / A + 1) st

/-- The `PriorityQueue` constructor with `build_key_map`'s
`assert(keys.size() == node_list.size())` modelled as `Option`. -/
def pqMake? (A : Nat) (isLf : Nat → Nat → Bool) (isMin : Bool)
    (already : Bool) (keys : List κ) (vals : List V) : Option (PQS κ V) :=
  if keys.length = vals.length then
    some (pqMakeCore A isLf isMin already keys vals)
  else none

/-- `PriorityQueue::push`: record the about-to-be-appended index and the key,
then delegate to `Heap::push` (append + `heapify_up`). -/
def pqPush (A : Nat) (isMin : Bool) (k : κ) (e : V) (st : PQS κ V) : PQS κ V :=
  let idx := st.nodes.length
  let imap1 := ains st.imap e idx
  let kmap1 := ains st.kmap e k
  pqUpF A (pqComp isMin kmap1) (idx + 1) ⟨st.nodes ++ [e], kmap1, imap1⟩ idx

/-- Body of `PriorityQueue::pop` after the assertion: erase the root from both
maps, move the last element to the root, shrink, and if the queue stayed
non-empty re-register the new root's index as 0 and `heapify_down(0)`. -/
def pqPopCore (A : Nat) (isLf : Nat → Nat → Bool) (isMin : Bool)
    (st : PQS κ V) : PQS κ V :=
  let node := nget st.nodes 0
  let imap1 := aerase st.imap node
  let kmap1 := aerase st.kmap node
  let ns1 := (st.nodes.set 0 (st.nodes.getLastD default)).dropLast
  if 0 < ns1.length then
    let front := nget ns1 0
    let imap2 := aset imap1 front 0
    pqSiftF A isLf (pqComp isMin kmap1) (ns1.length + 1) ⟨ns1, kmap1, imap2⟩ 0
  else ⟨ns1, kmap1, imap1⟩

/-- `PriorityQueue::pop` with its `assert(size() > 0)` as `Option`. -/
def pqPop? (A : Nat) (isLf : Nat → Nat → Bool) (isMin : Bool)
    (st : PQS κ V) : Option (PQS κ V) :=
  if st.nodes.isEmpty then none else some (pqPopCore A isLf isMin st)

/-- Body of `PriorityQueue::update_key` for a present element: read the
element's index from `index_map`, overwrite its entry in `key_map`, then run
the single directional repair — `heapify_up` for a min queue, `heapify_down`
for a max queue (`if constexpr (HeapType == Type::min_heap)`). -/
def pqUpdateKeyCore (A : Nat) (isLf : Nat → Nat → Bool) (isMin : Bool)
    (k : κ) (e : V) (st : PQS κ V) : PQS κ V :=
  let idx := (alookup st.imap e).getD 0
  let kmap1 := aset st.kmap e k
  let st1 : PQS κ V := ⟨st.nodes, kmap1, st.imap⟩
  if isMin then pqUpF A (pqComp isMin kmap1) (idx + 1) st1 idx
  else pqSiftF A isLf (pqComp isMin kmap1) (st.nodes.length + 1) st1 idx

/-- `PriorityQueue::update_key`: `index_map.at(element)` and the
`key_map.at(element)` assignment both throw on an absent element. -/
def pqUpdateKey? (A : Nat) (isLf : Nat → Nat → Bool) (isMin : Bool)
    (k : κ) (e : V) (st : PQS κ V) : Option (PQS κ V) :=
  match alookup st.imap e, alookup st.kmap e with
  | some _, some _ => some (pqUpdateKeyCore A isLf isMin k e st)
  | _, _ => none

/-- `PriorityQueue::key_at`: `key_map.at(element)` throws on absence. -/
def pqKeyAt? (st : PQS κ V) (e : V) : Option κ := alookup st.kmap e

/-- `PriorityQueue::contains`: `index_map.find(element) != end()`. -/
def pqContains (st : PQS κ V) (e : V) : Bool := (alookup st.imap e).isSome

/-- `PriorityQueue::top` (`assert(size() > 0)` via `Heap::top`). -/
def pqTop? (st : PQS κ V) : Option V :=
  if st.nodes.isEmpty then none else some (nget st.nodes 0)

/-- `PriorityQueue::top_key_value` for a non-empty queue. -/
def pqTopKV (st : PQS κ V) : κ × V :=
  (kGet st.kmap (nget st.nodes 0), nget st.nodes 0)

/-- Repeatedly `top_key_value()` then `pop()` until empty (the README's
`PriorityQueue` usage loop), listing the extracted pairs. -/
def pqPopAllF (A : Nat) (isLf : Nat → Nat → Bool) (isMin : Bool) :
    Nat → PQS κ V → List (κ × V)
  | 0, _ => []
  | fuel + 1, st =>
    if st.nodes.isEmpty then []
    else pqTopKV st :: pqPopAllF A isLf isMin fuel (pqPopCore A isLf isMin st)

/-- `pqPopAllF` with enough fuel to drain the queue. -/
def pqPopAll (A : Nat) (isLf : Nat → Nat → Bool) (isMin : Bool)
    (st : PQS κ V) : List (κ × V) :=
  pqPopAllF A isLf isMin st.nodes.length st

/-- The order in which extracted keys are expected: non-decreasing for a min
queue, non-increasing for a max queue. -/
def keyRel (isMin : Bool) (x y : κ) : Prop := if isMin then x ≤ y else y ≤ x

instance (isMin : Bool) (x y : κ) : Decidable (keyRel isMin x y) := by
  unfold keyRel; infer_instance

/-- The `KHeap` template constraint `std::enable_if<(K > 2)>`: a `KHeap` (and
any K-ary priority queue) is constructible only for `K > 2`; `K = 1` and
`K = 2` are rejected at construction time. -/
def kHeapMake? (K : Nat) (comp : V → V → Bool) (already : Bool) (ns : List V) :
    Option (List V) :=
  if 2 < K then some (mkHeapL K (kIsLeaf K) comp already ns) else none

/-- The consistency invariant tying `index_map` and `key_map` to the backing
vector: distinct nodes, maps with unique keys, `index_map[e]` is `e`'s actual
position, and both maps' key sets are exactly the stored elements. -/
def Sync (st : PQS κ V) : Prop :=
  st.nodes.Nodup ∧ (mapKeys st.imap).Nodup ∧ (mapKeys st.kmap).Nodup ∧
  (∀ p, p < st.nodes.length → alookup st.imap (nget st.nodes p) = some p) ∧
  (∀ v : V, (alookup st.imap v).isSome → v ∈ st.nodes) ∧
  (∀ v : V, (alookup st.kmap v).isSome ↔ v ∈ st.nodes)

/-- States of a `PriorityQueue` reachable from a public constructor through
any sequence of `push` (of a not-yet-present element), `pop` (of a non-empty
queue) and `update_key` (of a present element, any direction). -/
inductive ReachPQ (A : Nat) (isLf : Nat → Nat → Bool) (isMin : Bool) :
    PQS κ V → Prop
  | ctor (keys : List κ) (vals : List V) (already : Bool)
      (hlen : keys.length = vals.length) (hnd : vals.Nodup) :
      ReachPQ A isLf isMin (pqMakeCore A isLf isMin already keys vals)
  | push (st : PQS κ V) (k : κ) (e : V) (h : ReachPQ A isLf isMin st)
      (hfresh : e ∉ st.nodes) :
      ReachPQ A isLf isMin (pqPush A isMin k e st)
  | pop (st : PQS κ V) (h : ReachPQ A isLf isMin st) (hne : st.nodes ≠ []) :
      ReachPQ A isLf isMin (pqPopCore A isLf isMin st)
  | upd (st : PQS κ V) (k : κ) (e : V) (h : ReachPQ A isLf isMin st)
      (hmem : e ∈ st.nodes) :
      ReachPQ A isLf isMin (pqUpdateKeyCore A isLf isMin k e st)

/-! ### Basic facts about `nget`, `List.set` and `swapL` -/

theorem nget_eq_getElem {ns : List V} {i : Nat} (h : i < ns.length) :
    nget ns i = ns[i] :=
  List.getD_eq_getElem ns default h

theorem nget_mem {ns : List V} {i : Nat} (h : i < ns.length) : nget ns i ∈ ns := by
  rw [nget_eq_getElem h]; exact List.getElem_mem h

theorem nget_append_left {ns t : List V} {i : Nat} (h : i < ns.length) :
    nget (ns ++ t) i = nget ns i :=
  List.getD_append ns t default i h

theorem nget_set_eq {ns : List V} {i : Nat} (h : i < ns.length) (a : V) :
    nget (ns.set i a) i = a := by
  rw [nget_eq_getElem (by simpa using h)]
  simp

theorem nget_set_ne {ns : List V} {i j : Nat} (h : i ≠ j) (a : V) :
    nget (ns.set i a) j = nget ns j := by
  by_cases hj : j < ns.length
  · rw [nget_eq_getElem (by simpa using hj), nget_eq_getElem hj,
      List.getElem_set_ne h]
  · rw [nget, nget, List.getD_eq_default, List.getD_eq_default] <;>
      simp [Nat.le_of_not_lt hj]

theorem set_nget_self {ns : List V} {i : Nat} (h : i < ns.length) :
    ns.set i (nget ns i) = ns := by
  apply List.ext_getElem?
  intro j
  rcases eq_or_ne i j with rfl | hne
  · rw [List.getElem?_set_self', nget_eq_getElem h,
      List.getElem?_eq_getElem h]
    rfl
  · exact List.getElem?_set_ne hne

theorem length_swapL (ns : List V) (i j : Nat) :
    (swapL ns i j).length = ns.length := by
  simp [swapL]

theorem nget_swapL_left {ns : List V} {i j : Nat} (hi : i < ns.length)
    (hj : j < ns.length) : nget (swapL ns i j) i = nget ns j := by
  rcases eq_or_ne j i with rfl | hne
  · rw [swapL, nget_set_eq (by simpa using hi)]
  · rw [swapL, nget_set_ne hne, nget_set_eq hi]

theorem nget_swapL_right {ns : List V} {i j : Nat} (hj : j < ns.length) :
    nget (swapL ns i j) j = nget ns i := by
  rw [swapL, nget_set_eq (by simpa using hj)]

theorem nget_swapL_other {ns : List V} {i j k : Nat} (hki : k ≠ i)
    (hkj : k ≠ j) : nget (swapL ns i j) k = nget ns k := by
  rw [swapL, nget_set_ne (Ne.symm hkj), nget_set_ne (Ne.symm hki)]

theorem set_cons_perm :
    ∀ (t : List V) (j : Nat) (a : V), j < t.length →
      (nget t j :: t.set j a).Perm (a :: t)
  | b :: t, 0, a, _ => by
    simpa [nget] using List.Perm.swap a b t
  | b :: t, j + 1, a, h => by
    have ih := set_cons_perm t j a (by simpa using h)
    have h1 : (nget (b :: t) (j + 1) :: (b :: t).set (j + 1) a)
        = nget t j :: b :: t.set j a := by simp [nget]
    rw [h1]
    exact (List.Perm.swap b (nget t j) (t.set j a)).trans
      ((ih.cons b).trans (List.Perm.swap a b t))

theorem swapL_perm :
    ∀ (ns : List V) (i j : Nat), i < ns.length → j < ns.length →
      (swapL ns i j).Perm ns
  | ns, i, j, hi, hj => by
    rcases eq_or_ne i j with rfl | hne
    · rw [swapL, List.set_set, set_nget_self hi]
    · match ns, i, j, hi, hj, hne with
      | a :: t, 0, j + 1, hi, hj, _ =>
        have : swapL (a :: t) 0 (j + 1) = nget t j :: t.set j a := by
          simp [swapL, nget, List.set_cons_succ]
        rw [this]
        exact set_cons_perm t j a (by simpa using hj)
      | a :: t, i + 1, 0, hi, hj, _ =>
        have : swapL (a :: t) (i + 1) 0 = nget t i :: t.set i a := by
          simp [swapL, nget, List.set_cons_succ]
        rw [this]
        exact set_cons_perm t i a (by simpa using hi)
      | a :: t, i + 1, j + 1, hi, hj, hne =>
        have ih := swapL_perm t i j (by simpa using hi) (by simpa using hj)
        have : swapL (a :: t) (i + 1) (j + 1) = a :: swapL t i j := by
          simp [swapL, nget, List.set_cons_succ]
        rw [this]
        exact ih.cons a

/-! ### Association-list map lemmas -/

theorem alookup_isSome_iff {α : Type} (m : List (V × α)) (x : V) :
    (alookup m x).isSome ↔ x ∈ mapKeys m := by
  induction m with
  | nil => simp [alookup, mapKeys]
  | cons hd t ih =>
    obtain ⟨k, b⟩ := hd
    by_cases h : k = x
    · subst h; simp [alookup, mapKeys]
    · simp [alookup, mapKeys, h, Ne.symm h, ih]

theorem alookup_eq_none_iff {α : Type} (m : List (V × α)) (x : V) :
    alookup m x = none ↔ x ∉ mapKeys m := by
  rw [← alookup_isSome_iff, Option.not_isSome_iff_eq_none]

theorem aset_of_absent {α : Type} {m : List (V × α)} {x : V} (a : α)
    (h : alookup m x = none) : aset m x a = m := by
  induction m with
  | nil => rfl
  | cons hd t ih =>
    obtain ⟨k, b⟩ := hd
    by_cases hk : k = x
    · subst hk; simp [alookup] at h
    · simp only [alookup, hk, if_false] at h
      simp [aset, hk, ih h]

theorem alookup_aset_eq {α : Type} {m : List (V × α)} {x : V} (a : α)
    (h : (alookup m x).isSome) : alookup (aset m x a) x = some a := by
  induction m with
  | nil => simp [alookup] at h
  | cons hd t ih =>
    obtain ⟨k, b⟩ := hd
    by_cases hk : k = x
    · subst hk; simp [aset, alookup]
    · simp only [alookup, hk, if_false] at h
      simp [aset, alookup, hk, ih h]

theorem alookup_aset_ne {α : Type} {m : List (V × α)} {x y : V} (a : α)
    (h : y ≠ x) : alookup (aset m x a) y = alookup m y := by
  induction m with
  | nil => rfl
  | cons hd t ih =>
    obtain ⟨k, b⟩ := hd
    by_cases hk : k = x
    · subst hk; simp [aset, alookup, Ne.symm h]
    · by_cases hky : k = y
      · subst hky; simp [aset, alookup, hk]
      · simp [aset, alookup, hk, hky, ih]

theorem mapKeys_aset {α : Type} (m : List (V × α)) (x : V) (a : α) :
    mapKeys (aset m x a) = mapKeys m := by
  induction m with
  | nil => rfl
  | cons hd t ih =>
    obtain ⟨k, b⟩ := hd
    by_cases hk : k = x
    · subst hk; simp [aset, mapKeys]
    · simp only [aset, hk, if_false, mapKeys, List.map_cons]
      exact congrArg (List.cons k) ih

theorem length_aset {α : Type} (m : List (V × α)) (x : V) (a : α) :
    (aset m x a).length = m.length := by
  have := congrArg List.length (mapKeys_aset m x a)
  simpa [mapKeys] using this

theorem alookup_append_of_none {α : Type} {m1 : List (V × α)}
    (m2 : List (V × α)) {y : V} (h : alookup m1 y = none) :
    alookup (m1 ++ m2) y = alookup m2 y := by
  induction m1 with
  | nil => rfl
  | cons hd t ih =>
    obtain ⟨k, b⟩ := hd
    by_cases hk : k = y
    · subst hk; simp [alookup] at h
    · simp only [alookup, hk, if_false] at h
      simp only [List.cons_append, alookup, hk, if_false]
      exact ih h

theorem alookup_append_of_some {α : Type} {m1 : List (V × α)}
    (m2 : List (V × α)) {y : V} {a : α} (h : alookup m1 y = some a) :
    alookup (m1 ++ m2) y = some a := by
  induction m1 with
  | nil => simp [alookup] at h
  | cons hd t ih =>
    obtain ⟨k, b⟩ := hd
    by_cases hk : k = y
    · subst hk
      simp only [alookup, if_true] at h
      simp [List.cons_append, alookup, h]
    · simp only [alookup, hk, if_false] at h
      simp only [List.cons_append, alookup, hk, if_false]
      exact ih h

theorem alookup_ains_eq {α : Type} (m : List (V × α)) (x : V) (a : α) :
    alookup (ains m x a) x = some a := by
  rw [ains]
  by_cases h : (alookup m x).isSome
  · simp only [h, if_true]
    exact alookup_aset_eq a h
  · rw [if_neg h]
    have hnone : alookup m x = none := Option.not_isSome_iff_eq_none.mp h
    rw [alookup_append_of_none _ hnone]
    simp [alookup]

theorem alookup_ains_ne {α : Type} (m : List (V × α)) {x y : V} (a : α)
    (h : y ≠ x) : alookup (ains m x a) y = alookup m y := by
  rw [ains]
  by_cases hs : (alookup m x).isSome
  · simp only [hs, if_true]
    exact alookup_aset_ne a h
  · rw [if_neg hs]
    cases hy : alookup m y with
    | none =>
      rw [alookup_append_of_none _ hy]
      simp [alookup, Ne.symm h]
    | some b => exact alookup_append_of_some _ hy

theorem mapKeys_ains_absent {α : Type} {m : List (V × α)} {x : V} (a : α)
    (h : alookup m x = none) : mapKeys (ains m x a) = mapKeys m ++ [x] := by
  rw [ains, h]
  simp [mapKeys]

theorem mapKeys_ains_present {α : Type} {m : List (V × α)} {x : V} (a : α)
    (h : (alookup m x).isSome) : mapKeys (ains m x a) = mapKeys m := by
  rw [ains]
  simp only [h, if_true]
  exact mapKeys_aset m x a

theorem mapKeys_ains_nodup {α : Type} {m : List (V × α)} {x : V} (a : α)
    (h : (mapKeys m).Nodup) : (mapKeys (ains m x a)).Nodup := by
  by_cases hs : (alookup m x).isSome
  · rw [mapKeys_ains_present a hs]; exact h
  · have hnone : alookup m x = none := Option.not_isSome_iff_eq_none.mp hs
    rw [mapKeys_ains_absent a hnone]
    have hx : x ∉ mapKeys m := (alookup_eq_none_iff m x).mp hnone
    simp [List.nodup_append, h, hx]

theorem aerase_sublist {α : Type} (m : List (V × α)) (x : V) :
    (aerase m x).Sublist m := by
  induction m with
  | nil => simp [aerase]
  | cons hd t ih =>
    obtain ⟨k, b⟩ := hd
    by_cases hk : k = x
    · subst hk; simp [aerase]
    · simp only [aerase, hk, if_false]
      exact ih.cons₂ (k, b)

theorem mapKeys_aerase_nodup {α : Type} {m : List (V × α)} (x : V)
    (h : (mapKeys m).Nodup) : (mapKeys (aerase m x)).Nodup :=
  ((aerase_sublist m x).map Prod.fst).nodup h

theorem alookup_aerase_self {α : Type} {m : List (V × α)} {x : V}
    (h : (mapKeys m).Nodup) : alookup (aerase m x) x = none := by
  induction m with
  | nil => rfl
  | cons hd t ih =>
    obtain ⟨k, b⟩ := hd
    simp only [mapKeys, List.map_cons, List.nodup_cons] at h
    by_cases hk : k = x
    · subst hk
      simp only [aerase, if_true]
      rw [alookup_eq_none_iff]
      exact h.1
    · simp only [aerase, hk, if_false, alookup]
      exact ih h.2

theorem alookup_aerase_ne {α : Type} (m : List (V × α)) {x y : V}
    (h : y ≠ x) : alookup (aerase m x) y = alookup m y := by
  induction m with
  | nil => rfl
  | cons hd t ih =>
    obtain ⟨k, b⟩ := hd
    by_cases hk : k = x
    · subst hk; simp [aerase, alookup, Ne.symm h]
    · by_cases hky : k = y
      · subst hky; simp [aerase, alookup, hk]
      · simp [aerase, alookup, hk, hky, ih]

theorem length_aerase_mem {α : Type} {m : List (V × α)} {x : V}
    (h : x ∈ mapKeys m) : (aerase m x).length + 1 = m.length := by
  induction m with
  | nil => simp [mapKeys] at h
  | cons hd t ih =>
    obtain ⟨k, b⟩ := hd
    by_cases hk : k = x
    · subst hk; simp [aerase]
    · simp only [mapKeys, List.map_cons, List.mem_cons] at h
      rcases h with h | h
      · exact absurd h.symm hk
      · simp only [aerase, hk, if_false, List.length_cons]
        rw [← ih h]

/-! ### Specification of the `comp_est` selection (`pick`) -/

theorem CompOK.irrefl {comp : V → V → Bool} (hc : CompOK comp) (a : V) :
    comp a a = false := by
  cases h : comp a a with
  | false => rfl
  | true => exact absurd (hc.asymm a a h) (by simp [h])

theorem pickAux_spec {A : Nat} (hA : 0 < A) {comp : V → V → Bool}
    (hc : CompOK comp) (ns : List V) (i : Nat) :
    ∀ (js : List Nat) (est : Nat),
      (est = i ∨ (i < est ∧ est < ns.length ∧
        comp (nget ns i) (nget ns est) = true)) →
      (js.foldl (pickStep A comp ns i) est = est ∨
        comp (nget ns est) (nget ns (js.foldl (pickStep A comp ns i) est)) =
          true) ∧
      (js.foldl (pickStep A comp ns i) est = i ∨
        (i < js.foldl (pickStep A comp ns i) est ∧
          js.foldl (pickStep A comp ns i) est < ns.length ∧
          comp (nget ns i) (nget ns (js.foldl (pickStep A comp ns i) est)) =
            true)) ∧
      (∀ j ∈ js, A * i + j + 1 < ns.length →
        comp (nget ns (js.foldl (pickStep A comp ns i) est))
          (nget ns (A * i + j + 1)) = false)
  | [], est, hB => ⟨Or.inl rfl, hB, by simp⟩
  | j :: js, est, hB => by
    by_cases hlt : A * i + j + 1 < ns.length
    · by_cases hcmp : comp (nget ns est) (nget ns (A * i + j + 1)) = true
      · have hstep : pickStep A comp ns i est j = A * i + j + 1 := by
          simp [pickStep, hlt, hcmp]
        have hson : i < A * i + j + 1 :=
          Nat.lt_succ_of_le
            (le_trans (Nat.le_mul_of_pos_left i hA) (Nat.le_add_right _ j))
        have hBson : A * i + j + 1 = i ∨ (i < A * i + j + 1 ∧
            A * i + j + 1 < ns.length ∧
            comp (nget ns i) (nget ns (A * i + j + 1)) = true) := by
          rcases hB with rfl | ⟨h1, h2, h3⟩
          · exact Or.inr ⟨hson, hlt, hcmp⟩
          · exact Or.inr ⟨hson, hlt, hc.trans _ _ _ h3 hcmp⟩
        obtain ⟨ih1, ih2, ih3⟩ := pickAux_spec hA hc ns i js (A * i + j + 1) hBson
        simp only [List.foldl_cons, hstep]
        refine ⟨?_, ih2, ?_⟩
        · rcases ih1 with heq | hlt2
          · rw [heq]; exact Or.inr hcmp
          · exact Or.inr (hc.trans _ _ _ hcmp hlt2)
        · intro j' hj' hlen'
          rcases List.mem_cons.mp hj' with rfl | hmem
          · rcases ih1 with heq | hlt2
            · rw [heq]; exact hc.irrefl _
            · cases hr : comp (nget ns (js.foldl (pickStep A comp ns i)
                  (A * i + j' + 1))) (nget ns (A * i + j' + 1)) with
              | false => rfl
              | true =>
                have := hc.trans _ _ _ hlt2 hr
                rw [hc.irrefl] at this
                exact absurd this (by simp)
          · exact ih3 j' hmem hlen'
      · have hstep : pickStep A comp ns i est j = est := by
          simp [pickStep, hcmp]
        obtain ⟨ih1, ih2, ih3⟩ := pickAux_spec hA hc ns i js est hB
        simp only [List.foldl_cons, hstep]
        refine ⟨ih1, ih2, ?_⟩
        intro j' hj' hlen'
        rcases List.mem_cons.mp hj' with rfl | hmem
        · rcases ih1 with heq | hlt2
          · rw [heq]
            simpa using hcmp
          · cases hr : comp (nget ns (js.foldl (pickStep A comp ns i) est))
                (nget ns (A * i + j' + 1)) with
            | false => rfl
            | true => exact absurd (hc.trans _ _ _ hlt2 hr) hcmp
        · exact ih3 j' hmem hlen'
    · have hstep : pickStep A comp ns i est j = est := by
        simp [pickStep, hlt]
      obtain ⟨ih1, ih2, ih3⟩ := pickAux_spec hA hc ns i js est hB
      simp only [List.foldl_cons, hstep]
      refine ⟨ih1, ih2, ?_⟩
      intro j' hj' hlen'
      rcases List.mem_cons.mp hj' with rfl | hmem
      · exact absurd hlen' hlt
      · exact ih3 j' hmem hlen'

theorem pick_spec {A : Nat} {comp : V → V → Bool} (hc : CompOK comp)
    (ns : List V) (i : Nat) :
    (pick A comp ns i = i ∨
      (i < pick A comp ns i ∧ pick A comp ns i < ns.length ∧
        (∃ j, j < A ∧ pick A comp ns i = A * i + j + 1) ∧
        comp (nget ns i) (nget ns (pick A comp ns i)) = true)) ∧
    (∀ j, j < A → A * i + j + 1 < ns.length →
      comp (nget ns (pick A comp ns i)) (nget ns (A * i + j + 1)) = false) := by
  rcases Nat.eq_zero_or_pos A with rfl | hA
  · constructor
    · exact Or.inl rfl
    · intro j hj; exact absurd hj (Nat.not_lt_zero j)
  · obtain ⟨h1, h2, h3⟩ := pickAux_spec hA hc ns i (List.range A) i (Or.inl rfl)
    constructor
    · rcases h2 with heq | ⟨ha, hb, hcm⟩
      · exact Or.inl heq
      · refine Or.inr ⟨ha, hb, ?_, hcm⟩
        -- the result differs from the start value `i`, so the fold took at
        -- least one update step, and every update sets the value to a child
        have hshape : ∀ (js : List Nat) (est : Nat),
            js.Sublist (List.range A) →
            (est = i ∨ ∃ j, j < A ∧ est = A * i + j + 1) →
            (js.foldl (pickStep A comp ns i) est = i ∨
              ∃ j, j < A ∧ js.foldl (pickStep A comp ns i) est = A * i + j + 1) := by
          intro js
          induction js with
          | nil => intro est _ h; simpa using h
          | cons j js ihs =>
            intro est hsub hB
            have hjA : j < A := by
              have : j ∈ List.range A := hsub.subset (List.mem_cons_self j js)
              simpa using this
            have hsub' : js.Sublist (List.range A) :=
              (List.sublist_cons_self j js).trans hsub
            simp only [List.foldl_cons]
            apply ihs _ hsub'
            by_cases hstep : (A * i + j + 1 < ns.length &&
                comp (nget ns est) (nget ns (A * i + j + 1))) = true
            · right
              refine ⟨j, hjA, ?_⟩
              simp [pickStep, hstep]
            · rcases hB with rfl | ⟨j', hj', rfl⟩
              · left; simp [pickStep, hstep]
              · right
                refine ⟨j', hj', ?_⟩
                simp only [pickStep]
                rw [if_neg (by simpa using hstep)]
        have := hshape (List.range A) i (List.Sublist.refl _) (Or.inl rfl)
        rcases this with heq' | hex
        · rw [heq'] at ha
          exact absurd ha (lt_irrefl i)
        · exact hex
    · intro j hj hlen
      exact h3 j (List.mem_range.mpr hj) hlen

/-! ### The subtree relation of the complete arity-`A` tree -/

theorem Desc.trans {A : Nat} {i j k : Nat} (h1 : Desc A i j)
    (h2 : Desc A j k) : Desc A i k := by
  induction h1 with
  | refl => exact h2
  | node i j hj h ih => exact Desc.node i j hj (ih h2)

theorem Desc_son {A : Nat} (i : Nat) {j : Nat} (hj : j < A) :
    Desc A i (A * i + j + 1) :=
  Desc.node i j hj (Desc.refl _)

theorem Desc.le {A : Nat} (hA : 0 < A) {i c : Nat} (h : Desc A i c) :
    i ≤ c := by
  induction h with
  | refl => exact le_refl _
  | node i j hj h ih =>
    exact le_trans
      (le_trans (Nat.le_mul_of_pos_left i hA)
        (le_trans (Nat.le_add_right _ j) (Nat.le_succ _))) ih

theorem parent_son_eq {A : Nat} (hA : 0 < A) (i : Nat) {j : Nat} (hj : j < A) :
    (A * i + j + 1 - 1) / A = i := by
  have h1 : A * i + j + 1 - 1 = A * i + j := by omega
  rw [h1, Nat.mul_add_div hA]
  simp [Nat.div_eq_of_lt hj]

theorem son_of_parent {A : Nat} (hA : 0 < A) {c p : Nat} (hc : 0 < c)
    (h : (c - 1) / A = p) : ∃ j, j < A ∧ c = A * p + j + 1 := by
  refine ⟨c - 1 - A * p, ?_, ?_⟩
  · have h1 : A * p ≤ c - 1 := by
      rw [← h, Nat.mul_comm]
      exact Nat.div_mul_le_self _ _
    have h2 : c - 1 < A * p + A := by
      rw [← h]
      have hdm := Nat.div_add_mod (c - 1) A
      have hm : (c - 1) % A < A := Nat.mod_lt _ hA
      omega
    omega
  · have h1 : A * p ≤ c - 1 := by
      rw [← h, Nat.mul_comm]
      exact Nat.div_mul_le_self _ _
    omega

theorem Desc_of_parent {A : Nat} (hA : 0 < A) {i c : Nat} (hc : 0 < c)
    (h : Desc A i ((c - 1) / A)) : Desc A i c := by
  obtain ⟨j, hj, hcs⟩ := son_of_parent hA hc rfl
  rw [hcs]
  exact h.trans (Desc_son _ hj)

theorem Desc_zero {A : Nat} (hA : 0 < A) : ∀ c, Desc A 0 c := by
  intro c
  induction c using Nat.strong_induction_on with
  | _ c ih =>
    rcases Nat.eq_zero_or_pos c with rfl | hc
    · exact Desc.refl 0
    · exact Desc_of_parent hA hc (ih _ (by
        have := Nat.div_le_self (c - 1) A
        omega))

theorem Desc_cases_down {A : Nat} {i c : Nat} (h : Desc A i c) (hne : c ≠ i) :
    ∃ j, j < A ∧ Desc A (A * i + j + 1) c := by
  cases h with
  | refl => exact absurd rfl hne
  | node i j hj h => exact ⟨j, hj, h⟩

theorem Desc_parent {A : Nat} (hA : 0 < A) {i c : Nat} (hd : Desc A i c)
    (hne : c ≠ i) : Desc A i ((c - 1) / A) := by
  induction hd with
  | refl i => exact absurd rfl hne
  | node p j hj h ih =>
    rename_i c
    rcases eq_or_ne c (A * p + j + 1) with rfl | hne3
    · rw [parent_son_eq hA p hj]
      exact Desc.refl p
    · exact (Desc_son p hj).trans (ih hne3)

theorem Desc_laminar {A : Nat} (hA : 0 < A) :
    ∀ (c a b : Nat), a ≤ b → Desc A a c → Desc A b c → Desc A a b := by
  intro c
  induction c using Nat.strong_induction_on with
  | _ c ih =>
    intro a b hab hac hbc
    rcases eq_or_ne c b with rfl | hcb
    · exact hac
    · rcases eq_or_ne c a with rfl | hca
      · have hba : b ≤ c := hbc.le hA
        have hba2 : c = b := le_antisymm hab hba
        rw [hba2]
        exact Desc.refl b
      · have hc : 0 < c := by
          rcases Nat.eq_zero_or_pos c with rfl | hc
          · exact absurd (Nat.le_zero.mp (hbc.le hA)).symm hcb
          · exact hc
        have hpar : (c - 1) / A < c := by
          have := Nat.div_le_self (c - 1) A
          omega
        exact ih _ hpar a b hab (Desc_parent hA hac hca)
          (Desc_parent hA hbc hcb)

/-! ### Consequences of `pick_spec` -/

theorem pick_ne_bounds {A : Nat} {comp : V → V → Bool} (hc : CompOK comp)
    {ns : List V} {i : Nat} (h : pick A comp ns i ≠ i) :
    i < pick A comp ns i ∧ pick A comp ns i < ns.length ∧
      Desc A i (pick A comp ns i) := by
  rcases (pick_spec hc ns i).1 with heq | ⟨h1, h2, ⟨j, hj, hshape⟩, _⟩
  · exact absurd heq h
  · refine ⟨h1, h2, ?_⟩
    rw [hshape]
    exact Desc_son i hj

theorem pick_eq_of_no_sons {A : Nat} {comp : V → V → Bool} {ns : List V}
    {i : Nat} (h : ¬(A * i + 1 < ns.length)) : pick A comp ns i = i := by
  rw [pick]
  have : ∀ js : List Nat, js.foldl (pickStep A comp ns i) i = i := by
    intro js
    induction js with
    | nil => rfl
    | cons j t ih =>
      have hson : ¬(A * i + j + 1 < ns.length) := by omega
      have hstep : pickStep A comp ns i i j = i := by
        simp [pickStep, hson]
      rw [List.foldl_cons, hstep]
      exact ih
  exact this _

theorem pick_eq_of_sons_ok {A : Nat} {comp : V → V → Bool} (hc : CompOK comp)
    {ns : List V} {i : Nat}
    (h : ∀ j, j < A → A * i + j + 1 < ns.length →
      comp (nget ns i) (nget ns (A * i + j + 1)) = false) :
    pick A comp ns i = i := by
  rcases (pick_spec hc ns i).1 with heq | ⟨h1, h2, ⟨j, hj, hshape⟩, hcm⟩
  · exact heq
  · rw [hshape] at hcm h2
    rw [h j hj h2] at hcm
    exact absurd hcm (by simp)

/-! ### Basic behaviour of `siftF` -/

theorem siftF_length {A : Nat} {isLf : Nat → Nat → Bool}
    {comp : V → V → Bool} :
    ∀ (fuel : Nat) (ns : List V) (i : Nat),
      (siftF A isLf comp fuel ns i).length = ns.length
  | 0, ns, i => rfl
  | fuel + 1, ns, i => by
    rw [siftF]
    by_cases hlf : isLf ns.length i
    · simp [hlf]
    · simp only [hlf, Bool.false_eq_true, if_false]
      by_cases hest : pick A comp ns i = i
      · simp [hest]
      · simp only [hest, if_false]
        rw [siftF_length fuel, length_swapL]

theorem siftF_perm {A : Nat} {isLf : Nat → Nat → Bool} {comp : V → V → Bool}
    (hc : CompOK comp) :
    ∀ (fuel : Nat) (ns : List V) (i : Nat),
      (siftF A isLf comp fuel ns i).Perm ns
  | 0, ns, i => List.Perm.refl ns
  | fuel + 1, ns, i => by
    rw [siftF]
    by_cases hlf : isLf ns.length i
    · simp [hlf]
    · simp only [hlf, Bool.false_eq_true, if_false]
      by_cases hest : pick A comp ns i = i
      · simp [hest]
      · simp only [hest, if_false]
        obtain ⟨h1, h2, _⟩ := pick_ne_bounds hc hest
        exact (siftF_perm hc fuel _ _).trans
          (swapL_perm ns i _ (lt_trans h1 h2) h2)

theorem siftF_outside {A : Nat} {isLf : Nat → Nat → Bool}
    {comp : V → V → Bool} (hc : CompOK comp) :
    ∀ (fuel : Nat) (ns : List V) (i p : Nat), ¬Desc A i p →
      nget (siftF A isLf comp fuel ns i) p = nget ns p
  | 0, ns, i, p, hp => rfl
  | fuel + 1, ns, i, p, hp => by
    rw [siftF]
    by_cases hlf : isLf ns.length i
    · simp [hlf]
    · simp only [hlf, Bool.false_eq_true, if_false]
      by_cases hest : pick A comp ns i = i
      · simp [hest]
      · simp only [hest, if_false]
        obtain ⟨h1, h2, hdesc⟩ := pick_ne_bounds hc hest
        have hpi : p ≠ i := fun h => hp (by rw [h]; exact Desc.refl i)
        have hpe : p ≠ pick A comp ns i := fun h => hp (by rw [h]; exact hdesc)
        have hp2 : ¬Desc A (pick A comp ns i) p := fun h =>
          hp (hdesc.trans h)
        rw [siftF_outside hc fuel _ _ _ hp2, nget_swapL_other hpi hpe]

theorem siftF_bridge {A : Nat} {isLf : Nat → Nat → Bool}
    {comp : V → V → Bool} :
    ∀ (fuel : Nat) (ns : List V) (i : Nat),
      LeafSoundAt A isLf ns.length →
      siftF A isLf comp fuel ns i =
        siftF A (fun _ _ => false) comp fuel ns i
  | 0, ns, i, hs => rfl
  | fuel + 1, ns, i, hs => by
    rw [siftF, siftF]
    by_cases hlf : isLf ns.length i
    · have hpick : pick A comp ns i = i := pick_eq_of_no_sons (hs i hlf)
      simp [hlf, hpick]
    · simp only [hlf, Bool.false_eq_true, if_false]
      by_cases hest : pick A comp ns i = i
      · simp [hest]
      · simp only [hest, if_false]
        exact siftF_bridge fuel _ _ (by rw [length_swapL]; exact hs)

/-! ### Subtree heaps, root minimality, and `heapify_down` correctness -/

theorem subHeap_descend {A : Nat} (hA : 0 < A) {comp : V → V → Bool}
    {ns : List V} {i p : Nat} (h : subHeap A comp ns i) (hp : Desc A i p) :
    subHeap A comp ns p := by
  intro c hclen hdesc hcne
  have hic : Desc A i c := hp.trans hdesc
  have hcni : c ≠ i := by
    intro hci
    subst hci
    exact hcne (le_antisymm (hdesc.le hA) (hp.le hA)).symm
  exact h c hclen hic hcni

theorem subHeap_vacuous {A : Nat} (hA : 0 < A) {comp : V → V → Bool}
    {ns : List V} {i : Nat} (h : ns.length ≤ i) : subHeap A comp ns i := by
  intro c hclen hdesc _
  exact absurd (lt_of_lt_of_le hclen h) (not_lt.mpr (hdesc.le hA))

theorem subHeap_frame {A : Nat} (hA : 0 < A) {comp : V → V → Bool}
    {ns ns' : List V} {i : Nat} (hlen : ns'.length = ns.length)
    (hval : ∀ p, Desc A i p → p < ns.length → nget ns' p = nget ns p)
    (h : subHeap A comp ns i) : subHeap A comp ns' i := by
  intro c hclen hdesc hcne
  rw [hlen] at hclen
  have hpar : Desc A i ((c - 1) / A) := Desc_parent hA hdesc hcne
  have hparlen : (c - 1) / A < ns.length :=
    lt_of_le_of_lt (le_trans (Nat.div_le_self _ _) (Nat.pred_le c)) hclen
  rw [hval c hdesc hclen, hval _ hpar hparlen]
  exact h c hclen hdesc hcne

theorem subHeap_root_min {A : Nat} (hA : 0 < A) {comp : V → V → Bool}
    (hc : CompOK comp) {ns : List V} {i : Nat} (h : subHeap A comp ns i) :
    ∀ c, c < ns.length → Desc A i c → comp (nget ns i) (nget ns c) = false := by
  intro c
  induction c using Nat.strong_induction_on with
  | _ c ih =>
    intro hclen hdesc
    rcases eq_or_ne c i with rfl | hcne
    · exact hc.irrefl _
    · have hc0 : 0 < c := by
        rcases Nat.eq_zero_or_pos c with rfl | h0
        · exact absurd (Nat.le_zero.mp (hdesc.le hA)).symm hcne
        · exact h0
      have hparlt : (c - 1) / A < c :=
        lt_of_le_of_lt (Nat.div_le_self _ _) (Nat.pred_lt (Nat.pos_iff_ne_zero.mp hc0))
      have hpar : Desc A i ((c - 1) / A) := Desc_parent hA hdesc hcne
      have hparlen : (c - 1) / A < ns.length := lt_trans hparlt hclen
      exact hc.ntrans _ _ _ (ih _ hparlt hparlen hpar) (h c hclen hdesc hcne)

theorem Desc_sibling_not {A : Nat} (hA : 0 < A) {i j1 j2 : Nat} (h1 : j1 < A)
    (h2 : j2 < A) (hne : j1 ≠ j2) :
    ¬Desc A (A * i + j1 + 1) (A * i + j2 + 1) := by
  intro h
  have hsne : A * i + j2 + 1 ≠ A * i + j1 + 1 := by omega
  have := Desc_parent hA h hsne
  rw [parent_son_eq hA i h2] at this
  have hle := this.le hA
  have hmul : i ≤ A * i := Nat.le_mul_of_pos_left i hA
  omega

theorem Desc_sibling_disjoint {A : Nat} (hA : 0 < A) {i j1 j2 p : Nat}
    (h1 : j1 < A) (h2 : j2 < A) (hne : j1 ≠ j2)
    (hp1 : Desc A (A * i + j1 + 1) p) : ¬Desc A (A * i + j2 + 1) p := by
  intro hp2
  rcases le_total (A * i + j1 + 1) (A * i + j2 + 1) with hle | hle
  · exact Desc_sibling_not hA h1 h2 hne (Desc_laminar hA p _ _ hle hp1 hp2)
  · exact Desc_sibling_not hA h2 h1 (Ne.symm hne) (Desc_laminar hA p _ _ hle hp2 hp1)

theorem siftF_values_from_subtree {A : Nat} (hA : 0 < A)
    {comp : V → V → Bool} (hc : CompOK comp) :
    ∀ (fuel : Nat) (ns : List V) (i p : Nat), Desc A i p → p < ns.length →
      ∃ q, Desc A i q ∧ q < ns.length ∧
        nget (siftF A (fun _ _ => false) comp fuel ns i) p = nget ns q
  | 0, ns, i, p, hp, hplen => ⟨p, hp, hplen, rfl⟩
  | fuel + 1, ns, i, p, hp, hplen => by
    rw [siftF]
    simp only [Bool.false_eq_true, if_false]
    by_cases hest : pick A comp ns i = i
    · exact ⟨p, hp, hplen, by simp [hest]⟩
    · simp only [hest, if_false]
      obtain ⟨hi1, hi2, hdesc⟩ := pick_ne_bounds hc hest
      have hilen : i < ns.length := lt_trans hi1 hi2
      by_cases hdp : Desc A (pick A comp ns i) p
      · obtain ⟨q', hq'desc, hq'len, hq'val⟩ :=
          siftF_values_from_subtree hA hc fuel (swapL ns i (pick A comp ns i))
            (pick A comp ns i) p hdp (by rw [length_swapL]; exact hplen)
        rw [length_swapL] at hq'len
        rcases eq_or_ne q' (pick A comp ns i) with rfl | hq'ne
        · exact ⟨i, Desc.refl i, hilen,
            by rw [hq'val, nget_swapL_right hi2]⟩
        · have hq'ni : q' ≠ i := by
            intro h
            subst h
            exact absurd (hq'desc.le hA) (not_le.mpr hi1)
          exact ⟨q', hdesc.trans hq'desc, hq'len,
            by rw [hq'val, nget_swapL_other hq'ni hq'ne]⟩
      · have hpne : p ≠ pick A comp ns i :=
          fun h => hdp (by rw [h]; exact Desc.refl _)
        have hnotdesc : ¬Desc A (pick A comp ns i) i := fun h =>
          absurd (h.le hA) (not_le.mpr hi1)
        rcases eq_or_ne p i with hpi | hpni
        · refine ⟨pick A comp ns i, hdesc, hi2, ?_⟩
          rw [hpi, siftF_outside hc fuel _ _ _ hnotdesc,
            nget_swapL_left hilen hi2]
        · exact ⟨p, hp, hplen,
            by rw [siftF_outside hc fuel _ _ _ hdp,
              nget_swapL_other hpni hpne]⟩

theorem siftF_subHeap {A : Nat} (hA : 0 < A) {comp : V → V → Bool}
    (hc : CompOK comp) :
    ∀ (fuel : Nat) (ns : List V) (i : Nat), ns.length - i ≤ fuel →
      (∀ j, j < A → A * i + j + 1 < ns.length →
        subHeap A comp ns (A * i + j + 1)) →
      subHeap A comp (siftF A (fun _ _ => false) comp fuel ns i) i
  | 0, ns, i, hfuel, hsons => by
    have : ns.length ≤ i := by omega
    exact subHeap_vacuous hA this
  | fuel + 1, ns, i, hfuel, hsons => by
    rw [siftF]
    simp only [Bool.false_eq_true, if_false]
    by_cases hest : pick A comp ns i = i
    · -- no swap needed: node i already beats its in-range children
      simp only [hest, if_true]
      intro c hclen hdesc hcne
      obtain ⟨jc, hjc, hdc⟩ := Desc_cases_down hdesc hcne
      rcases eq_or_ne c (A * i + jc + 1) with rfl | hcs
      · rw [parent_son_eq hA i hjc]
        have := (pick_spec hc ns i).2 jc hjc hclen
        rwa [hest] at this
      · have hslen : A * i + jc + 1 < ns.length :=
          lt_of_le_of_lt (hdc.le hA) hclen
        exact hsons jc hjc hslen c hclen hdc hcs
    · simp only [hest, if_false]
      obtain ⟨hi1, hi2, hdesc⟩ := pick_ne_bounds hc hest
      obtain ⟨heq0, ⟨j0, hj0, hshape⟩⟩ :
          (i < pick A comp ns i ∧ pick A comp ns i < ns.length) ∧
            ∃ j, j < A ∧ pick A comp ns i = A * i + j + 1 := by
        rcases (pick_spec hc ns i).1 with h | ⟨a, b, c', d⟩
        · exact absurd h hest
        · exact ⟨⟨a, b⟩, c'⟩
      have hilen : i < ns.length := lt_trans hi1 hi2
      set e := pick A comp ns i with hedef
      set ns' := swapL ns i e with hswdef
      have hlen' : ns'.length = ns.length := length_swapL ns i e
      -- subtrees of e's children are intact heaps in ns'
      have hsons' : ∀ j, j < A → A * e + j + 1 < ns'.length →
          subHeap A comp ns' (A * e + j + 1) := by
        intro j hj hjlen
        rw [hlen'] at hjlen
        have hesub : subHeap A comp ns e := by
          rw [hshape]
          exact hsons j0 hj0 (hshape ▸ hi2)
        have hsubson : subHeap A comp ns (A * e + j + 1) :=
          subHeap_descend hA hesub (Desc_son e hj)
        apply subHeap_frame hA (by rw [hlen']) _ hsubson
        intro p hdp hplen
        have hmul : e ≤ A * e := Nat.le_mul_of_pos_left e hA
        have hpe : p ≠ e := by
          intro h
          subst h
          have := hdp.le hA
          omega
        have hpi : p ≠ i := by
          intro h
          subst h
          have := hdp.le hA
          omega
        exact nget_swapL_other hpi hpe
      have hrec : subHeap A comp
          (siftF A (fun _ _ => false) comp fuel ns' e) e :=
        siftF_subHeap hA hc fuel ns' e (by rw [hlen']; omega) hsons'
      set r := siftF A (fun _ _ => false) comp fuel ns' e with hrdef
      have hrlen : r.length = ns.length := by
        rw [hrdef, siftF_length, hlen']
      -- value bookkeeping
      have hri : nget r i = nget ns e := by
        have hnotdesc : ¬Desc A e i := fun h => by
          have := h.le hA
          omega
        rw [hrdef, siftF_outside hc fuel _ _ _ hnotdesc, hswdef,
          nget_swapL_left hilen hi2]
      intro c hclen hdesc hcne
      rw [hrlen] at hclen
      obtain ⟨jc, hjc, hdc⟩ := Desc_cases_down hdesc hcne
      rcases eq_or_ne (A * i + jc + 1) e with hsc | hsc
      · -- c lies in the subtree of the promoted child e
        rw [hsc] at hdc
        rcases eq_or_ne c e with rfl | hcee
        · -- the pair (i, e) itself
          rw [hshape, parent_son_eq hA i hj0, ← hshape]
          rw [hri]
          obtain ⟨q, hqdesc, hqlen, hqval⟩ :=
            siftF_values_from_subtree hA hc fuel ns' e e (Desc.refl e)
              (by rw [hlen']; exact hi2)
          rw [← hrdef] at hqval
          rw [hqval]
          rw [hlen'] at hqlen
          rcases eq_or_ne q e with rfl | hqe
          · rw [hswdef, nget_swapL_right hi2]
            exact hc.asymm _ _ (((pick_spec hc ns i).1.resolve_left
              hest).2.2.2)
          · have hqi : q ≠ i := by
              intro h
              subst h
              have := hqdesc.le hA
              omega
            rw [hswdef, nget_swapL_other hqi hqe]
            have hesub : subHeap A comp ns e := by
              rw [hshape]
              exact hsons j0 hj0 (hshape ▸ hi2)
            exact subHeap_root_min hA hc hesub q hqlen hqdesc
        · -- a pair strictly inside the subtree of e
          exact hrec c (by rw [hrlen]; exact hclen) hdc hcee
      · -- c lies in the subtree of a sibling of e: values unchanged
        have hslen : A * i + jc + 1 < ns.length :=
          lt_of_le_of_lt (hdc.le hA) hclen
        have huntouched : ∀ p, Desc A (A * i + jc + 1) p → p < ns.length →
            nget r p = nget ns p := by
          intro p hdp hplen
          have hpe : ¬Desc A e p := by
            rw [hshape]
            rw [hshape] at hsc
            have hjne : jc ≠ j0 := fun h => hsc (by rw [h])
            exact Desc_sibling_disjoint hA hjc hj0 hjne hdp
          have hppi : p ≠ i := by
            intro h
            have hle := hdp.le hA
            have hmul : i ≤ A * i := Nat.le_mul_of_pos_left i hA
            omega
          have hppe : p ≠ e := fun h => hpe (by rw [h]; exact Desc.refl _)
          rw [hrdef, siftF_outside hc fuel _ _ _ hpe, hswdef,
            nget_swapL_other hppi hppe]
        rcases eq_or_ne c (A * i + jc + 1) with rfl | hcs
        · -- the pair (i, sibling)
          rw [parent_son_eq hA i hjc, hri,
            huntouched _ (Desc.refl _) hclen]
          exact (pick_spec hc ns i).2 jc hjc hclen
        · -- a pair strictly inside the sibling's subtree
          have hsubs : subHeap A comp ns (A * i + jc + 1) :=
            hsons jc hjc hslen
          have hpair := hsubs c hclen hdc hcs
          have hparin : Desc A (A * i + jc + 1) ((c - 1) / A) :=
            Desc_parent hA hdc hcs
          have hparlen : (c - 1) / A < ns.length :=
            lt_of_le_of_lt (le_trans (Nat.div_le_self _ _) (Nat.pred_le c))
              hclen
          rw [huntouched c hdc hclen, huntouched _ hparin hparlen]
          exact hpair

/-! ### `build_heap` establishes the heap property -/

theorem heapProp_iff_subHeap_zero {A : Nat} (hA : 0 < A)
    {comp : V → V → Bool} (ns : List V) :
    heapProp A comp ns ↔ subHeap A comp ns 0 := by
  constructor
  · intro h c hclen hdesc hcne
    exact h c hclen (Nat.pos_of_ne_zero hcne)
  · intro h c hclen hc0
    exact h c hclen (Desc_zero hA c) (Nat.pos_iff_ne_zero.mp hc0)

theorem heapProp_root_min {A : Nat} (hA : 0 < A) {comp : V → V → Bool}
    (hc : CompOK comp) {ns : List V} (h : heapProp A comp ns) :
    ∀ c, c < ns.length → comp (nget ns 0) (nget ns c) = false := by
  intro c hclen
  exact subHeap_root_min hA hc ((heapProp_iff_subHeap_zero hA ns).mp h) c
    hclen (Desc_zero hA c)

theorem subHeap_leaf {A : Nat} (hA : 0 < A) {comp : V → V → Bool}
    {ns : List V} {i : Nat} (h : ns.length ≤ A * i + 1) :
    subHeap A comp ns i := by
  intro c hclen hdesc hcne
  obtain ⟨j, hj, hdc⟩ := Desc_cases_down hdesc hcne
  have := hdc.le hA
  omega

theorem buildAux_inv {A : Nat} (hA : 0 < A) {comp : V → V → Bool}
    (hc : CompOK comp) :
    ∀ (m : Nat) (ns : List V),
      (∀ j, m ≤ j → subHeap A comp ns j) →
      ∀ j, subHeap A comp (buildAux A (fun _ _ => false) comp m ns) j
  | 0, ns, hinv, j => hinv j (Nat.zero_le j)
  | m + 1, ns, hinv, j => by
    rw [buildAux]
    apply buildAux_inv hA hc m _ _
    intro j' hj'
    set ns1 := siftF A (fun _ _ => false) comp (ns.length + 1) ns m with hdef
    have hsm : subHeap A comp ns1 m := by
      apply siftF_subHeap hA hc _ _ _ (by omega)
      intro jx hjx hlen
      have hmm : m ≤ A * m := Nat.le_mul_of_pos_left m hA
      exact hinv _ (by omega)
    rcases eq_or_ne j' m with rfl | hne
    · exact hsm
    · have hjm : m < j' := lt_of_le_of_ne hj' (Ne.symm hne)
      by_cases hdm : Desc A m j'
      · exact subHeap_descend hA hsm hdm
      · apply subHeap_frame hA (by rw [hdef, siftF_length])
          _ (hinv j' (by omega))
        intro p hdp hplen
        have hnd : ¬Desc A m p := by
          intro hmp
          rcases le_total m j' with hle | hle
          · exact hdm (Desc_laminar hA p m j' hle hmp hdp)
          · exact absurd (Desc_laminar hA p j' m hle hdp hmp).le
              (by intro h; exact absurd (h hA) (by omega))
        rw [hdef]
        exact siftF_outside hc _ _ _ _ hnd

theorem buildAux_bridge {A : Nat} {isLf : Nat → Nat → Bool}
    {comp : V → V → Bool} :
    ∀ (m : Nat) (ns : List V), LeafSoundAt A isLf ns.length →
      buildAux A isLf comp m ns = buildAux A (fun _ _ => false) comp m ns
  | 0, ns, hs => rfl
  | m + 1, ns, hs => by
    rw [buildAux, buildAux, siftF_bridge _ _ _ hs,
      buildAux_bridge m _ (by rw [siftF_length]; exact hs)]

theorem buildAux_perm {A : Nat} {isLf : Nat → Nat → Bool}
    {comp : V → V → Bool} (hc : CompOK comp) :
    ∀ (m : Nat) (ns : List V), (buildAux A isLf comp m ns).Perm ns
  | 0, ns => List.Perm.refl ns
  | m + 1, ns => by
    rw [buildAux]
    exact (buildAux_perm hc m _).trans (siftF_perm hc _ _ _)

theorem buildAux_length {A : Nat} {isLf : Nat → Nat → Bool}
    {comp : V → V → Bool} (hc : CompOK comp) (m : Nat) (ns : List V) :
    (buildAux A isLf comp m ns).length = ns.length :=
  (buildAux_perm hc m ns).length_eq

theorem buildHeapL_heapProp {A : Nat} (hA : 0 < A)
    {isLf : Nat → Nat → Bool} {comp : V → V → Bool} (hc : CompOK comp)
    (ns : List V) (hs : LeafSoundAt A isLf ns.length) :
    heapProp A comp (buildHeapL A isLf comp ns) := by
  rw [buildHeapL, buildAux_bridge _ _ hs]
  rw [heapProp_iff_subHeap_zero hA]
  apply buildAux_inv hA hc
  intro j hj
  apply subHeap_leaf hA
  have hdm := Nat.div_add_mod ns.length A
  have hm : ns.length % A < A := Nat.mod_lt _ hA
  have hmono : A * (ns.length / A + 1) ≤ A * j :=
    Nat.mul_le_mul_left A hj
  have hexp : A * (ns.length / A + 1) = A * (ns.length / A) + A := by ring
  omega

/-! ### A valid heap is left untouched (`IsAlreadyHeap` equivalence) -/

theorem pick_eq_of_heapProp {A : Nat} (hA : 0 < A) {comp : V → V → Bool}
    (hc : CompOK comp) {ns : List V} (h : heapProp A comp ns) (i : Nat) :
    pick A comp ns i = i := by
  apply pick_eq_of_sons_ok hc
  intro j hj hlen
  have hpar := parent_son_eq hA i hj
  have := h (A * i + j + 1) hlen (by omega)
  rwa [hpar] at this

theorem siftF_eq_self_of_heapProp {A : Nat} (hA : 0 < A)
    {isLf : Nat → Nat → Bool} {comp : V → V → Bool} (hc : CompOK comp)
    {ns : List V} (h : heapProp A comp ns) :
    ∀ (fuel i : Nat), siftF A isLf comp fuel ns i = ns
  | 0, i => rfl
  | fuel + 1, i => by
    rw [siftF]
    by_cases hlf : isLf ns.length i
    · simp [hlf]
    · simp [hlf, pick_eq_of_heapProp hA hc h i]

theorem buildHeapL_eq_self_of_heapProp {A : Nat} (hA : 0 < A)
    {isLf : Nat → Nat → Bool} {comp : V → V → Bool} (hc : CompOK comp)
    {ns : List V} (h : heapProp A comp ns) :
    buildHeapL A isLf comp ns = ns := by
  rw [buildHeapL]
  generalize ns.length / A + 1 = m
  induction m with
  | zero => rfl
  | succ m ih =>
    rw [buildAux, siftF_eq_self_of_heapProp hA hc h]
    exact ih

theorem mkHeapL_flag_irrelevant {A : Nat} (hA : 0 < A)
    {isLf : Nat → Nat → Bool} {comp : V → V → Bool} (hc : CompOK comp)
    {ns : List V} (h : heapProp A comp ns) (b1 b2 : Bool) :
    mkHeapL A isLf comp b1 ns = mkHeapL A isLf comp b2 ns := by
  rw [mkHeapL, mkHeapL]
  rcases b1 <;> rcases b2 <;>
    simp [buildHeapL_eq_self_of_heapProp hA hc h]

/-! ### `pop` preserves the heap property; draining pops in sorted order -/

theorem pop_shrunk_length {ns : List V} (hne : ns ≠ []) :
    ((ns.set 0 (ns.getLastD default)).dropLast).length = ns.length - 1 := by
  simp

theorem pop_shrunk_perm :
    ∀ (r : V) (t : List V),
      (((r :: t).set 0 ((r :: t).getLastD default)).dropLast).Perm t := by
  intro r t
  rcases List.eq_nil_or_concat t with rfl | ⟨t0, x, rfl⟩
  · simp
  · rw [List.concat_eq_append]
    have hlast : (r :: (t0 ++ [x])).getLastD default = x := by
      rw [← List.cons_append]
      exact List.getLastD_concat _ _ _
    have h1 : ((r :: (t0 ++ [x])).set 0
        ((r :: (t0 ++ [x])).getLastD default)) = x :: (t0 ++ [x]) := by
      rw [hlast]
      rfl
    rw [h1]
    have h2 : (x :: (t0 ++ [x])).dropLast = x :: t0 := by
      rw [show x :: (t0 ++ [x]) = (x :: t0) ++ [x] from rfl,
        List.dropLast_concat]
    rw [h2]
    exact (List.perm_append_singleton x t0).symm

theorem pop_shrunk_nget {ns : List V} {p : Nat} (hp : 0 < p)
    (hplen : p < ns.length - 1) :
    nget ((ns.set 0 (ns.getLastD default)).dropLast) p = nget ns p := by
  have hlen : ((ns.set 0 (ns.getLastD default)).dropLast).length =
      ns.length - 1 := by simp
  have hp2 : p < ns.length := by omega
  rw [nget_eq_getElem (by rw [hlen]; exact hplen), nget_eq_getElem hp2]
  rw [List.getElem_dropLast, List.getElem_set_ne (by omega)]

theorem popCoreL_heapProp {A : Nat} (hA : 0 < A) {isLf : Nat → Nat → Bool}
    {comp : V → V → Bool} (hc : CompOK comp) {ns : List V}
    (hs : LeafSoundAt A isLf (ns.length - 1)) (h : heapProp A comp ns) :
    heapProp A comp (popCoreL A isLf comp ns) := by
  rw [popCoreL]
  set ns1 := (ns.set 0 (ns.getLastD default)).dropLast with hns1
  have hlen1 : ns1.length = ns.length - 1 := by simp [hns1]
  rw [siftF_bridge _ _ _ (by rw [hlen1]; exact hs)]
  rw [heapProp_iff_subHeap_zero hA]
  apply siftF_subHeap hA hc _ _ _ (by omega)
  intro j hj hlen
  intro c hclen hdesc hcne
  have hcge : A * 0 + j + 1 ≤ c := hdesc.le hA
  have hpar : Desc A (A * 0 + j + 1) ((c - 1) / A) := Desc_parent hA hdesc hcne
  have hparge : A * 0 + j + 1 ≤ (c - 1) / A := hpar.le hA
  have hparlt : (c - 1) / A < c := by
    have := Nat.div_le_self (c - 1) A
    omega
  rw [hlen1] at hclen
  rw [pop_shrunk_nget (by omega) hclen,
    pop_shrunk_nget (by omega) (by omega)]
  exact h c (by omega) (by omega)

theorem popCoreL_perm {A : Nat} {isLf : Nat → Nat → Bool}
    {comp : V → V → Bool} (hc : CompOK comp) (r : V) (t : List V) :
    (popCoreL A isLf comp (r :: t)).Perm t := by
  rw [popCoreL]
  exact (siftF_perm hc _ _ _).trans (pop_shrunk_perm r t)

theorem nget_index_of_mem {ns : List V} {x : V} (h : x ∈ ns) :
    ∃ i, i < ns.length ∧ nget ns i = x := by
  obtain ⟨i, hi, hx⟩ := List.mem_iff_getElem.mp h
  exact ⟨i, hi, by rw [nget_eq_getElem hi, hx]⟩

theorem popAllF_spec {A : Nat} (hA : 0 < A) {isLf : Nat → Nat → Bool}
    {comp : V → V → Bool} (hc : CompOK comp) :
    ∀ (fuel : Nat) (ns : List V), ns.length ≤ fuel →
      (∀ L, L < ns.length → LeafSoundAt A isLf L) →
      heapProp A comp ns →
      (popAllF A isLf comp fuel ns).Perm ns ∧
        List.Pairwise (fun a b => comp a b = false)
          (popAllF A isLf comp fuel ns)
  | 0, ns, hfuel, hsl, h => by
    have : ns = [] := List.length_eq_zero.mp (by omega)
    subst this
    exact ⟨List.Perm.refl _, List.Pairwise.nil⟩
  | fuel + 1, ns, hfuel, hsl, h => by
    rw [popAllF]
    by_cases hne : ns.isEmpty
    · simp only [hne, if_true]
      rw [List.isEmpty_iff.mp hne]
      exact ⟨List.Perm.refl _, List.Pairwise.nil⟩
    · simp only [hne, Bool.false_eq_true, if_false]
      have hnsne : ns ≠ [] := by
        intro hh
        rw [hh] at hne
        simp at hne
      obtain ⟨r, t, rfl⟩ := List.exists_cons_of_ne_nil hnsne
      have hlen' : (popCoreL A isLf comp (r :: t)).length = t.length :=
        (popCoreL_perm hc r t).length_eq
      have hrec := popAllF_spec hA hc fuel (popCoreL A isLf comp (r :: t))
        (by rw [hlen']; simpa using Nat.le_of_succ_le_succ hfuel)
        (by
          intro L hL
          rw [hlen'] at hL
          exact hsl L (by simpa using Nat.lt_succ_of_lt hL))
        (popCoreL_heapProp hA hc
          (hsl _ (by simp)) h)
      refine ⟨?_, ?_⟩
      · exact (hrec.1.cons (nget (r :: t) 0)).trans
          (((popCoreL_perm hc r t).cons _).trans (by simp [nget]))
      · refine List.Pairwise.cons ?_ hrec.2
        intro x hx
        have hx2 : x ∈ r :: t := by
          have hx3 : x ∈ popCoreL A isLf comp (r :: t) := hrec.1.mem_iff.mp hx
          have hx4 : x ∈ t := (popCoreL_perm hc r t).mem_iff.mp hx3
          exact List.mem_cons_of_mem r hx4
        obtain ⟨idx, hidx, hval⟩ := nget_index_of_mem hx2
        rw [← hval]
        exact heapProp_root_min hA hc h idx hidx

/-! ### `heapify_up` restores the heap property -/

theorem upF_length {A : Nat} {comp : V → V → Bool} :
    ∀ (fuel : Nat) (ns : List V) (i : Nat),
      (upF A comp fuel ns i).length = ns.length
  | 0, ns, i => rfl
  | fuel + 1, ns, i => by
    rw [upF]
    by_cases hcond : 0 < i ∧
        comp (nget ns ((i - 1) / A)) (nget ns i) = true
    · rw [if_pos hcond, upF_length fuel, length_swapL]
    · rw [if_neg hcond]

theorem upF_perm {A : Nat} {comp : V → V → Bool} :
    ∀ (fuel : Nat) (ns : List V) (i : Nat), i < ns.length →
      (upF A comp fuel ns i).Perm ns
  | 0, ns, i, hi => List.Perm.refl ns
  | fuel + 1, ns, i, hi => by
    rw [upF]
    by_cases hcond : 0 < i ∧
        comp (nget ns ((i - 1) / A)) (nget ns i) = true
    · rw [if_pos hcond]
      have hplt : (i - 1) / A < i :=
        lt_of_le_of_lt (Nat.div_le_self _ _)
          (Nat.pred_lt (Nat.pos_iff_ne_zero.mp hcond.1))
      exact (upF_perm fuel _ _
          (by rw [length_swapL]; exact lt_trans hplt hi)).trans
        (swapL_perm ns i _ hi (lt_trans hplt hi))
    · rw [if_neg hcond]

theorem upF_heapProp {A : Nat} (hA : 0 < A) {comp : V → V → Bool}
    (hc : CompOK comp) :
    ∀ (fuel : Nat) (ns : List V) (i : Nat), i < fuel → i < ns.length →
      (∀ c, c < ns.length → 0 < c → c ≠ i →
        comp (nget ns ((c - 1) / A)) (nget ns c) = false) →
      (0 < i → ∀ c, c < ns.length → (c - 1) / A = i →
        comp (nget ns ((i - 1) / A)) (nget ns c) = false) →
      heapProp A comp (upF A comp fuel ns i)
  | 0, ns, i, hfuel, hlen, h1, h2 => absurd hfuel (Nat.not_lt_zero i)
  | fuel + 1, ns, i, hfuel, hlen, h1, h2 => by
    rw [upF]
    by_cases hcond : 0 < i ∧
        comp (nget ns ((i - 1) / A)) (nget ns i) = true
    · rw [if_pos hcond]
      obtain ⟨hi0, hcmp⟩ := hcond
      set p := (i - 1) / A with hpdef
      have hplt : p < i :=
        lt_of_le_of_lt (Nat.div_le_self _ _)
          (Nat.pred_lt (Nat.pos_iff_ne_zero.mp hi0))
      have hplen : p < ns.length := lt_trans hplt hlen
      set ns' := swapL ns i p with hswdef
      have hlen' : ns'.length = ns.length := length_swapL ns i p
      have hvi : nget ns' i = nget ns p := nget_swapL_left hlen hplen
      have hvp : nget ns' p = nget ns i := nget_swapL_right hplen
      have hvo : ∀ q, q ≠ i → q ≠ p → nget ns' q = nget ns q := by
        intro q hqi hqp
        exact nget_swapL_other hqi hqp
      apply upF_heapProp hA hc fuel ns' p
        (lt_of_lt_of_le hplt (Nat.lt_succ_iff.mp hfuel))
        (by rw [hlen']; exact hplen)
      · -- pairs away from p hold after the swap
        intro c hclen hc0 hcp
        rw [hlen'] at hclen
        rcases eq_or_ne c i with rfl | hci
        · -- the swapped pair itself
          rw [← hpdef, hvp, hvi]
          exact hc.asymm _ _ hcmp
        · have hvc : nget ns' c = nget ns c := hvo c hci hcp
          rcases eq_or_ne ((c - 1) / A) i with hpar | hpar
          · -- c was a child of i; its new parent value is the old nget ns p
            rw [hpar, hvi, hvc]
            exact h2 hi0 c hclen hpar
          · rcases eq_or_ne ((c - 1) / A) p with hpar2 | hpar2
            · -- c is a sibling of i (another child of p)
              rw [hpar2, hvp, hvc]
              have hcf : comp (nget ns p) (nget ns c) = false := by
                have := h1 c hclen hc0 hci
                rwa [hpar2] at this
              cases hcc : comp (nget ns i) (nget ns c) with
              | false => rfl
              | true =>
                have := hc.trans _ _ _ hcmp hcc
                rw [this] at hcf
                exact absurd hcf (by simp)
            · -- a pair untouched by the swap
              rw [hvc, hvo _ hpar hpar2]
              exact h1 c hclen hc0 hci
      · -- the grandparent dominates the children of p after the swap
        intro hp0 c hclen hparc
        rw [hlen'] at hclen
        have hgplt : (p - 1) / A < p :=
          lt_of_le_of_lt (Nat.div_le_self _ _)
            (Nat.pred_lt (Nat.pos_iff_ne_zero.mp hp0))
        have hgpi : (p - 1) / A ≠ i := Nat.ne_of_lt (lt_trans hgplt hplt)
        have hgpp : (p - 1) / A ≠ p := Nat.ne_of_lt hgplt
        rw [hvo _ hgpi hgpp]
        have hgp_p : comp (nget ns ((p - 1) / A)) (nget ns p) = false :=
          h1 p hplen hp0 (Nat.ne_of_lt hplt)
        have hc0 : 0 < c := by
          rcases Nat.eq_zero_or_pos c with rfl | hcz
          · rw [Nat.zero_sub, Nat.zero_div] at hparc
            omega
          · exact hcz
        rcases eq_or_ne c i with rfl | hci
        · rw [hvi]
          exact hgp_p
        · have hpc : p < c := by
            have hple : p ≤ c - 1 := by
              rw [← hparc]
              exact Nat.div_le_self _ _
            omega
          have hcp : c ≠ p := Ne.symm (Nat.ne_of_lt hpc)
          rw [hvo c hci hcp]
          have hp_c : comp (nget ns p) (nget ns c) = false := by
            have := h1 c hclen hc0 hci
            rwa [hparc] at this
          exact hc.ntrans _ _ _ hgp_p hp_c
    · rw [if_neg hcond]
      rw [not_and_or] at hcond
      intro c hclen hc0
      rcases eq_or_ne c i with rfl | hci
      · rcases hcond with hi0 | hcf
        · omega
        · simpa using hcf
      · exact h1 c hclen hc0 hci

theorem pushL_heapProp {A : Nat} (hA : 0 < A) {comp : V → V → Bool}
    (hc : CompOK comp) {ns : List V} (h : heapProp A comp ns) (v : V) :
    heapProp A comp (pushL A comp v ns) := by
  rw [pushL]
  apply upF_heapProp hA hc _ _ _ (by omega) (by simp)
  · intro c hclen hc0 hci
    have hclen2 : c < ns.length := by
      simp only [List.length_append, List.length_cons, List.length_nil] at hclen
      omega
    have hpar : (c - 1) / A < ns.length := by
      have h1 := Nat.div_le_self (c - 1) A
      omega
    rw [nget_append_left hclen2, nget_append_left hpar]
    exact h c hclen2 hc0
  · intro hi0 c hclen hparc
    have hsonge : A * ns.length + 1 ≤ c := by
      obtain ⟨j, hj, rfl⟩ := son_of_parent hA (by
        by_contra hcz
        have : c = 0 := by omega
        subst this
        simp at hparc
        omega) hparc
      omega
    have hmul : ns.length ≤ A * ns.length := Nat.le_mul_of_pos_left _ hA
    simp only [List.length_append, List.length_cons, List.length_nil] at hclen
    omega

/-! ### The `PriorityQueue` layer: projections of the heap algorithms -/

theorem pqSwap_nodes (st : PQS κ V) (i j : Nat) :
    (pqSwap st i j).nodes = swapL st.nodes i j := rfl

theorem pqSwap_kmap (st : PQS κ V) (i j : Nat) :
    (pqSwap st i j).kmap = st.kmap := rfl

theorem pqSiftF_nodes {A : Nat} {isLf : Nat → Nat → Bool}
    {comp : V → V → Bool} :
    ∀ (fuel : Nat) (st : PQS κ V) (i : Nat),
      (pqSiftF A isLf comp fuel st i).nodes = siftF A isLf comp fuel st.nodes i
  | 0, st, i => rfl
  | fuel + 1, st, i => by
    rw [pqSiftF, siftF]
    by_cases hlf : isLf st.nodes.length i
    · simp [hlf]
    · simp only [hlf, Bool.false_eq_true, if_false]
      by_cases hest : pick A comp st.nodes i = i
      · simp [hest]
      · simp only [hest, if_false]
        rw [pqSiftF_nodes fuel, pqSwap_nodes]

theorem pqSiftF_kmap {A : Nat} {isLf : Nat → Nat → Bool}
    {comp : V → V → Bool} :
    ∀ (fuel : Nat) (st : PQS κ V) (i : Nat),
      (pqSiftF A isLf comp fuel st i).kmap = st.kmap
  | 0, st, i => rfl
  | fuel + 1, st, i => by
    rw [pqSiftF]
    by_cases hlf : isLf st.nodes.length i
    · simp [hlf]
    · simp only [hlf, Bool.false_eq_true, if_false]
      by_cases hest : pick A comp st.nodes i = i
      · simp [hest]
      · simp only [hest, if_false]
        rw [pqSiftF_kmap fuel, pqSwap_kmap]

theorem pqUpF_nodes {A : Nat} {comp : V → V → Bool} :
    ∀ (fuel : Nat) (st : PQS κ V) (i : Nat),
      (pqUpF A comp fuel st i).nodes = upF A comp fuel st.nodes i
  | 0, st, i => rfl
  | fuel + 1, st, i => by
    rw [pqUpF, upF]
    by_cases hcond : 0 < i ∧
        comp (nget st.nodes ((i - 1) / A)) (nget st.nodes i) = true
    · rw [if_pos hcond, if_pos hcond, pqUpF_nodes fuel, pqSwap_nodes]
    · rw [if_neg hcond, if_neg hcond]

theorem pqUpF_kmap {A : Nat} {comp : V → V → Bool} :
    ∀ (fuel : Nat) (st : PQS κ V) (i : Nat),
      (pqUpF A comp fuel st i).kmap = st.kmap
  | 0, st, i => rfl
  | fuel + 1, st, i => by
    rw [pqUpF]
    by_cases hcond : 0 < i ∧
        comp (nget st.nodes ((i - 1) / A)) (nget st.nodes i) = true
    · rw [if_pos hcond, pqUpF_kmap fuel, pqSwap_kmap]
    · rw [if_neg hcond]

/-! ### The map-synchronization invariant -/

theorem pqComp_CompOK (isMin : Bool) (m : List (V × κ)) :
    CompOK (pqComp isMin m) := by
  cases isMin with
  | true =>
    refine ⟨?_, ?_, ?_⟩
    · intro a b h
      simp only [pqComp, if_true, decide_eq_true_eq] at h
      simp only [pqComp, if_true, decide_eq_false_iff_not, not_lt]
      exact le_of_lt h
    · intro a b c h1 h2
      simp only [pqComp, if_true, decide_eq_true_eq] at h1 h2 ⊢
      exact lt_trans h2 h1
    · intro a b c h1 h2
      simp only [pqComp, if_true, decide_eq_false_iff_not, not_lt] at h1 h2 ⊢
      exact le_trans h1 h2
  | false =>
    refine ⟨?_, ?_, ?_⟩
    · intro a b h
      simp only [pqComp, Bool.false_eq_true, if_false, decide_eq_true_eq] at h
      simp only [pqComp, Bool.false_eq_true, if_false,
        decide_eq_false_iff_not, not_lt]
      exact le_of_lt h
    · intro a b c h1 h2
      simp only [pqComp, Bool.false_eq_true, if_false,
        decide_eq_true_eq] at h1 h2 ⊢
      exact lt_trans h1 h2
    · intro a b c h1 h2
      simp only [pqComp, Bool.false_eq_true, if_false,
        decide_eq_false_iff_not, not_lt] at h1 h2 ⊢
      exact le_trans h2 h1

theorem nodup_nget_inj {ns : List V} (hnd : ns.Nodup) {i j : Nat}
    (hi : i < ns.length) (hj : j < ns.length) (h : nget ns i = nget ns j) :
    i = j := by
  rw [nget_eq_getElem hi, nget_eq_getElem hj] at h
  exact (hnd.getElem_inj_iff).mp h

theorem Sync_nodes_pos {st : PQS κ V} (hs : Sync st) {p : Nat}
    (hp : p < st.nodes.length) : alookup st.imap (nget st.nodes p) = some p :=
  hs.2.2.2.1 p hp

theorem Sync_pqSwap {st : PQS κ V} (hs : Sync st) {i j : Nat}
    (hi : i < st.nodes.length) (hj : j < st.nodes.length) (hij : i ≠ j) :
    Sync (pqSwap st i j) := by
  obtain ⟨hnd, hik, hkk, hpos, hidom, hkdom⟩ := hs
  set ni := nget st.nodes i with hni
  set nj := nget st.nodes j with hnj
  have hninj : ni ≠ nj := by
    intro h
    exact hij (nodup_nget_inj hnd hi hj h)
  have hvi : (alookup st.imap ni).getD 0 = i := by
    rw [hpos i hi]
    rfl
  have hvj : (alookup st.imap nj).getD 0 = j := by
    rw [hpos j hj]
    rfl
  have himap' : (pqSwap st i j).imap =
      aset (aset st.imap ni ((alookup st.imap nj).getD 0)) nj
        ((alookup st.imap ni).getD 0) := rfl
  refine ⟨?_, ?_, hkk, ?_, ?_, ?_⟩
  · rw [pqSwap_nodes]
    exact (swapL_perm st.nodes i j hi hj).nodup_iff.mpr hnd
  · rw [himap', mapKeys_aset, mapKeys_aset]
    exact hik
  · intro p hp
    rw [pqSwap_nodes, length_swapL] at hp
    rw [pqSwap_nodes, himap']
    rcases eq_or_ne p i with rfl | hpi
    · rw [nget_swapL_left hi hj, ← hnj]
      have hsome : (alookup
          (aset st.imap ni ((alookup st.imap nj).getD 0)) nj).isSome = true := by
        rw [alookup_aset_ne _ (Ne.symm hninj), hpos j hj]
        rfl
      rw [alookup_aset_eq _ hsome, hvi]
    · rcases eq_or_ne p j with rfl | hpj
      · rw [nget_swapL_right hj, ← hni]
        rw [alookup_aset_ne _ hninj]
        have hsome : (alookup st.imap ni).isSome = true := by
          rw [hpos i hi]
          rfl
        rw [alookup_aset_eq _ hsome, hvj]
      · have hpv : nget (swapL st.nodes i j) p = nget st.nodes p :=
          nget_swapL_other hpi hpj
        rw [hpv]
        have hvni : nget st.nodes p ≠ ni := by
          intro h
          exact hpi (nodup_nget_inj hnd hp hi h)
        have hvnj : nget st.nodes p ≠ nj := by
          intro h
          exact hpj (nodup_nget_inj hnd hp hj h)
        rw [alookup_aset_ne _ hvnj, alookup_aset_ne _ hvni]
        exact hpos p hp
  · intro v hv
    rw [pqSwap_nodes]
    rw [himap', alookup_isSome_iff, mapKeys_aset, mapKeys_aset,
      ← alookup_isSome_iff] at hv
    exact (swapL_perm st.nodes i j hi hj).mem_iff.mpr (hidom v hv)
  · intro v
    rw [pqSwap_nodes]
    rw [show (pqSwap st i j).kmap = st.kmap from rfl]
    rw [(swapL_perm st.nodes i j hi hj).mem_iff]
    exact hkdom v

theorem Sync_pqSiftF {A : Nat} {isLf : Nat → Nat → Bool}
    {comp : V → V → Bool} (hc : CompOK comp) :
    ∀ (fuel : Nat) (st : PQS κ V) (i : Nat), Sync st →
      Sync (pqSiftF A isLf comp fuel st i)
  | 0, st, i, hs => hs
  | fuel + 1, st, i, hs => by
    rw [pqSiftF]
    by_cases hlf : isLf st.nodes.length i
    · simp only [hlf, if_true]
      exact hs
    · simp only [hlf, Bool.false_eq_true, if_false]
      by_cases hest : pick A comp st.nodes i = i
      · simp only [hest, if_true]
        exact hs
      · simp only [hest, if_false]
        obtain ⟨h1, h2, _⟩ := pick_ne_bounds hc hest
        exact Sync_pqSiftF hc fuel _ _
          (Sync_pqSwap hs (lt_trans h1 h2) h2 (Nat.ne_of_lt h1))

theorem Sync_pqUpF {A : Nat} {comp : V → V → Bool} :
    ∀ (fuel : Nat) (st : PQS κ V) (i : Nat), i < st.nodes.length → Sync st →
      Sync (pqUpF A comp fuel st i)
  | 0, st, i, hi, hs => hs
  | fuel + 1, st, i, hi, hs => by
    rw [pqUpF]
    by_cases hcond : 0 < i ∧
        comp (nget st.nodes ((i - 1) / A)) (nget st.nodes i) = true
    · rw [if_pos hcond]
      have hplt : (i - 1) / A < i :=
        lt_of_le_of_lt (Nat.div_le_self _ _)
          (Nat.pred_lt (Nat.pos_iff_ne_zero.mp hcond.1))
      apply Sync_pqUpF fuel _ _
      · rw [pqSwap_nodes, length_swapL]
        exact lt_trans hplt hi
      · exact Sync_pqSwap hs hi (lt_trans hplt hi) (Ne.symm (Nat.ne_of_lt hplt))
    · rw [if_neg hcond]
      exact hs

/-! ### Correctness of `build_key_map` and `build_index_map` -/

theorem buildIMgo_lookup_unchanged :
    ∀ (vals : List V) (m : List (V × Nat)) (idx : Nat) (v : V), v ∉ vals →
      alookup (buildIMgo m idx vals) v = alookup m v
  | [], m, idx, v, hv => rfl
  | x :: t, m, idx, v, hv => by
    rw [buildIMgo, buildIMgo_lookup_unchanged t _ _ v
      (fun h => hv (List.mem_cons_of_mem x h))]
    exact alookup_ains_ne m _ (fun h => hv (h ▸ List.mem_cons_self x t))

theorem buildIMgo_lookup_pos :
    ∀ (vals : List V) (m : List (V × Nat)) (idx p : Nat), vals.Nodup →
      p < vals.length →
      alookup (buildIMgo m idx vals) (nget vals p) = some (idx + p)
  | [], _, _, p, _, hp => absurd hp (by simp)
  | x :: t, m, idx, 0, hnd, hp => by
    rw [buildIMgo, show nget (x :: t) 0 = x from rfl,
      buildIMgo_lookup_unchanged t _ _ x (List.nodup_cons.mp hnd).1,
      alookup_ains_eq]
    rfl
  | x :: t, m, idx, p + 1, hnd, hp => by
    rw [buildIMgo, show nget (x :: t) (p + 1) = nget t p from rfl,
      buildIMgo_lookup_pos t _ (idx + 1) p (List.nodup_cons.mp hnd).2
        (by simpa using hp)]
    congr 1
    omega

theorem buildIMgo_keys_nodup :
    ∀ (vals : List V) (m : List (V × Nat)) (idx : Nat),
      (mapKeys m).Nodup → (mapKeys (buildIMgo m idx vals)).Nodup
  | [], m, _, h => h
  | x :: t, m, idx, h =>
    buildIMgo_keys_nodup t _ _ (mapKeys_ains_nodup _ h)

theorem buildKMgo_lookup_unchanged (keys : List κ) :
    ∀ (vals : List V) (m : List (V × κ)) (idx : Nat) (v : V), v ∉ vals →
      alookup (buildKMgo keys m idx vals) v = alookup m v
  | [], m, idx, v, hv => rfl
  | x :: t, m, idx, v, hv => by
    rw [buildKMgo, buildKMgo_lookup_unchanged keys t _ _ v
      (fun h => hv (List.mem_cons_of_mem x h))]
    exact alookup_ains_ne m _ (fun h => hv (h ▸ List.mem_cons_self x t))

theorem buildKMgo_lookup_pos (keys : List κ) :
    ∀ (vals : List V) (m : List (V × κ)) (idx p : Nat), vals.Nodup →
      p < vals.length →
      alookup (buildKMgo keys m idx vals) (nget vals p) =
        some (keys.getD (idx + p) default)
  | [], _, _, p, _, hp => absurd hp (by simp)
  | x :: t, m, idx, 0, hnd, hp => by
    rw [buildKMgo, show nget (x :: t) 0 = x from rfl,
      buildKMgo_lookup_unchanged keys t _ _ x (List.nodup_cons.mp hnd).1,
      alookup_ains_eq]
    rfl
  | x :: t, m, idx, p + 1, hnd, hp => by
    rw [buildKMgo, show nget (x :: t) (p + 1) = nget t p from rfl,
      buildKMgo_lookup_pos keys t _ (idx + 1) p (List.nodup_cons.mp hnd).2
        (by simpa using hp)]
    congr 2
    omega

theorem buildKMgo_keys_nodup (keys : List κ) :
    ∀ (vals : List V) (m : List (V × κ)) (idx : Nat),
      (mapKeys m).Nodup → (mapKeys (buildKMgo keys m idx vals)).Nodup
  | [], m, _, h => h
  | x :: t, m, idx, h =>
    buildKMgo_keys_nodup keys t _ _ (mapKeys_ains_nodup _ h)

theorem Sync_init (keys : List κ) (vals : List V) (hnd : vals.Nodup) :
    Sync (⟨vals, buildKeyMap keys vals, buildIndexMap vals⟩ : PQS κ V) := by
  refine ⟨hnd, ?_, ?_, ?_, ?_, ?_⟩
  · exact buildIMgo_keys_nodup vals [] 0 List.Pairwise.nil
  · exact buildKMgo_keys_nodup keys vals [] 0 List.Pairwise.nil
  · intro p hp
    have := buildIMgo_lookup_pos vals [] 0 p hnd hp
    rwa [Nat.zero_add] at this
  · intro v hv
    by_contra hmem
    rw [show (⟨vals, buildKeyMap keys vals, buildIndexMap vals⟩ :
        PQS κ V).imap = buildIndexMap vals from rfl,
      buildIndexMap, buildIMgo_lookup_unchanged vals [] 0 v hmem] at hv
    simp [alookup] at hv
  · intro v
    constructor
    · intro hv
      by_contra hmem
      rw [show (⟨vals, buildKeyMap keys vals, buildIndexMap vals⟩ :
          PQS κ V).kmap = buildKeyMap keys vals from rfl,
        buildKeyMap, buildKMgo_lookup_unchanged keys vals [] 0 v hmem] at hv
      simp [alookup] at hv
    · intro hmem
      obtain ⟨p, hp, hval⟩ := nget_index_of_mem hmem
      rw [show (⟨vals, buildKeyMap keys vals, buildIndexMap vals⟩ :
          PQS κ V).kmap = buildKeyMap keys vals from rfl,
        buildKeyMap, ← hval, buildKMgo_lookup_pos keys vals [] 0 p hnd hp]
      rfl

theorem Sync_pqBuildAux {A : Nat} {isLf : Nat → Nat → Bool}
    {comp : V → V → Bool} (hc : CompOK comp) :
    ∀ (m : Nat) (st : PQS κ V), Sync st → Sync (pqBuildAux A isLf comp m st)
  | 0, st, hs => hs
  | m + 1, st, hs => by
    rw [pqBuildAux]
    exact Sync_pqBuildAux hc m _ (Sync_pqSiftF hc _ _ _ hs)

theorem Sync_pqMakeCore {A : Nat} {isLf : Nat → Nat → Bool} {isMin : Bool}
    (already : Bool) (keys : List κ) (vals : List V) (hnd : vals.Nodup) :
    Sync (pqMakeCore A isLf isMin already keys vals) := by
  rw [pqMakeCore]
  by_cases hb : already
  · simp only [hb, if_true]
    exact Sync_init keys vals hnd
  · simp only [hb, Bool.false_eq_true, if_false]
    apply Sync_pqBuildAux (pqComp_CompOK isMin _)
    exact Sync_init keys vals hnd

theorem nget_append_last (ns : List V) (e : V) :
    nget (ns ++ [e]) ns.length = e := by
  rw [nget, List.getD_append_right _ _ _ _ (le_refl _)]
  simp [nget]

theorem Sync_pqPush {A : Nat} {isMin : Bool} {st : PQS κ V} (hs : Sync st)
    (k : κ) {e : V} (hfresh : e ∉ st.nodes) :
    Sync (pqPush A isMin k e st) := by
  obtain ⟨hnd, hik, hkk, hpos, hidom, hkdom⟩ := hs
  rw [pqPush]
  apply Sync_pqUpF _ _ _ (by simp)
  refine ⟨?_, ?_, ?_, ?_, ?_, ?_⟩
  · simp only [List.nodup_append, List.nodup_cons, List.not_mem_nil,
      not_false_iff, List.nodup_nil, and_true, true_and]
    constructor
    · exact hnd
    · intro x hx hx2
      simp only [List.mem_singleton] at hx2
      subst hx2
      exact hfresh hx
  · exact mapKeys_ains_nodup _ hik
  · exact mapKeys_ains_nodup _ hkk
  · intro p hp
    simp only [List.length_append, List.length_cons, List.length_nil] at hp
    rcases Nat.lt_or_ge p st.nodes.length with hplt | hpge
    · have hval : nget (st.nodes ++ [e]) p = nget st.nodes p :=
        nget_append_left hplt
    -- the element at p is an old one, distinct from e
      have hne : nget st.nodes p ≠ e := by
        intro h
        exact hfresh (h ▸ nget_mem hplt)
      show alookup (ains st.imap e st.nodes.length)
        (nget (st.nodes ++ [e]) p) = some p
      rw [hval, alookup_ains_ne _ _ hne]
      exact hpos p hplt
    · have hpeq : p = st.nodes.length := by omega
      subst hpeq
      show alookup (ains st.imap e st.nodes.length)
        (nget (st.nodes ++ [e]) st.nodes.length) = some st.nodes.length
      rw [nget_append_last, alookup_ains_eq]
  · intro v hv
    show v ∈ st.nodes ++ [e]
    rcases eq_or_ne v e with rfl | hve
    · simp
    · have hv2 : (alookup (ains st.imap e st.nodes.length) v).isSome = true :=
        hv
      rw [alookup_ains_ne _ _ hve] at hv2
      exact List.mem_append_left _ (hidom v hv2)
  · intro v
    show (alookup (ains st.kmap e k) v).isSome = true ↔ v ∈ st.nodes ++ [e]
    rcases eq_or_ne v e with rfl | hve
    · rw [alookup_ains_eq]
      simp
    · rw [alookup_ains_ne _ _ hve]
      rw [hkdom v]
      constructor
      · exact List.mem_append_left _
      · intro h
        rcases List.mem_append.mp h with h | h
        · exact h
        · simp only [List.mem_singleton] at h
          exact absurd h hve

theorem getLastD_eq_nget {ns : List V} (h : ns ≠ []) :
    ns.getLastD default = nget ns (ns.length - 1) := by
  rw [List.getLastD_eq_getLast?, List.getLast?_eq_getLast ns h,
    Option.getD_some, List.getLast_eq_getElem,
    nget_eq_getElem (by
      have := List.length_pos.mpr h
      omega)]

theorem pop_shrunk_nget_zero {ns : List V} (h : 1 < ns.length) :
    nget ((ns.set 0 (ns.getLastD default)).dropLast) 0 =
      ns.getLastD default := by
  have hlen : ((ns.set 0 (ns.getLastD default)).dropLast).length =
      ns.length - 1 := by simp
  rw [nget_eq_getElem (by rw [hlen]; omega), List.getElem_dropLast,
    List.getElem_set_self (by simp; omega)]

theorem Sync_pqPopCore {A : Nat} {isLf : Nat → Nat → Bool} {isMin : Bool}
    {st : PQS κ V} (hs : Sync st) (hne : st.nodes ≠ []) :
    Sync (pqPopCore A isLf isMin st) := by
  obtain ⟨hnd, hik, hkk, hpos, hidom, hkdom⟩ := hs
  have hlenpos : 0 < st.nodes.length := List.length_pos.mpr hne
  rw [pqPopCore]
  set root := nget st.nodes 0 with hroot
  set imap1 := aerase st.imap root with himap1
  set kmap1 := aerase st.kmap root with hkmap1
  set ns1 := (st.nodes.set 0 (st.nodes.getLastD default)).dropLast with hns1
  have hlen1 : ns1.length = st.nodes.length - 1 := by simp [hns1]
  obtain ⟨r, t, hcons⟩ := List.exists_cons_of_ne_nil hne
  have hr : r = root := by
    rw [hroot, hcons]
    rfl
  have hperm1 : ns1.Perm t := by
    rw [hns1, hcons]
    exact pop_shrunk_perm r t
  have hnd1 : ns1.Nodup := hperm1.nodup_iff.mpr (by
    rw [hcons] at hnd
    exact (List.nodup_cons.mp hnd).2)
  have hrnot : root ∉ t := by
    rw [← hr]
    rw [hcons] at hnd
    exact (List.nodup_cons.mp hnd).1
  have hmem1 : ∀ v, v ∈ ns1 ↔ (v ∈ st.nodes ∧ v ≠ root) := by
    intro v
    rw [hperm1.mem_iff, hcons]
    constructor
    · intro hv
      refine ⟨List.mem_cons_of_mem r hv, ?_⟩
      intro hveq
      rw [hveq] at hv
      exact hrnot hv
    · intro ⟨hv, hvne⟩
      rcases List.mem_cons.mp hv with hv | hv
      · rw [← hr] at hvne
        exact absurd hv hvne
      · exact hv
  -- common facts about the two erased maps
  have hik1 : (mapKeys imap1).Nodup := mapKeys_aerase_nodup _ hik
  have hkk1 : (mapKeys kmap1).Nodup := mapKeys_aerase_nodup _ hkk
  have hkdom1 : ∀ v : V, (alookup kmap1 v).isSome = true ↔ v ∈ ns1 := by
    intro v
    rcases eq_or_ne v root with rfl | hv
    · rw [hkmap1, alookup_aerase_self hkk]
      simp only [Option.isSome_none, Bool.false_eq_true, false_iff]
      intro hmem
      exact absurd rfl ((hmem1 _).mp hmem).2
    · rw [hkmap1, alookup_aerase_ne _ hv, hkdom v, hmem1 v]
      exact ⟨fun h => ⟨h, hv⟩, fun h => h.1⟩
  by_cases h0 : 0 < ns1.length
  · rw [if_pos h0]
    apply Sync_pqSiftF (pqComp_CompOK isMin _)
    set front := nget ns1 0 with hfront
    have hfrval : front = nget st.nodes (st.nodes.length - 1) := by
      rw [hfront, hns1, pop_shrunk_nget_zero (by omega),
        getLastD_eq_nget hne]
    have hfrne : front ≠ root := by
      rw [hfrval, hroot]
      intro h
      have := nodup_nget_inj hnd (by omega) hlenpos h
      omega
    have hfrsome : (alookup imap1 front).isSome = true := by
      rw [himap1, alookup_aerase_ne _ hfrne, hfrval,
        hpos (st.nodes.length - 1) (by omega)]
      rfl
    refine ⟨hnd1, ?_, hkk1, ?_, ?_, hkdom1⟩
    · show (mapKeys (aset imap1 front 0)).Nodup
      rw [mapKeys_aset]
      exact hik1
    · intro p hp
      show alookup (aset imap1 front 0) (nget ns1 p) = some p
      rcases Nat.eq_zero_or_pos p with rfl | hppos
      · rw [← hfront, alookup_aset_eq _ hfrsome]
      · have hplen : p < st.nodes.length - 1 := by
          rw [← hlen1]
          exact hp
        have hval : nget ns1 p = nget st.nodes p := by
          rw [hns1]
          exact pop_shrunk_nget hppos hplen
        have hvne_front : nget ns1 p ≠ front := by
          rw [hval, hfrval]
          intro h
          have := nodup_nget_inj hnd (by omega) (by omega) h
          omega
        have hvne_root : nget ns1 p ≠ root := by
          rw [hval, hroot]
          intro h
          have := nodup_nget_inj hnd (by omega) hlenpos h
          omega
        rw [alookup_aset_ne _ hvne_front, himap1,
          alookup_aerase_ne _ hvne_root, hval]
        exact hpos p (by omega)
    · intro v hv
      have hv2 : (alookup (aset imap1 front 0) v).isSome = true := hv
      rcases eq_or_ne v front with rfl | hvf
      · rw [hfront]
        exact nget_mem h0
      · rw [alookup_aset_ne _ hvf] at hv2
        rcases eq_or_ne v root with rfl | hvr
        · rw [himap1, alookup_aerase_self hik] at hv2
          simp at hv2
        · rw [himap1, alookup_aerase_ne _ hvr] at hv2
          have hvmem := hidom v hv2
          rw [hmem1 v]
          exact ⟨hvmem, hvr⟩
  · rw [if_neg h0]
    have hns1nil : ns1 = [] := by
      rcases List.eq_nil_or_concat ns1 with h | ⟨a, b, h⟩
      · exact h
      · rw [h] at h0
        simp at h0
    refine ⟨by rw [hns1nil]; exact List.Pairwise.nil, hik1, hkk1, ?_, ?_, ?_⟩
    · intro p hp
      rw [hns1nil] at hp
      simp at hp
    · intro v hv
      have hv2 : (alookup imap1 v).isSome = true := hv
      rcases eq_or_ne v root with rfl | hvr
      · rw [himap1, alookup_aerase_self hik] at hv2
        simp at hv2
      · rw [himap1, alookup_aerase_ne _ hvr] at hv2
        exact (hmem1 v).mpr ⟨hidom v hv2, hvr⟩
    · intro v
      exact hkdom1 v

theorem Sync_pqUpdateKeyCore {A : Nat} {isLf : Nat → Nat → Bool}
    {isMin : Bool} {st : PQS κ V} (hs : Sync st) (k : κ) {e : V}
    (hmem : e ∈ st.nodes) :
    Sync (pqUpdateKeyCore A isLf isMin k e st) := by
  obtain ⟨hnd, hik, hkk, hpos, hidom, hkdom⟩ := hs
  rw [pqUpdateKeyCore]
  obtain ⟨q, hq, hqval⟩ := nget_index_of_mem hmem
  have hidx : (alookup st.imap e).getD 0 = q := by
    rw [← hqval, hpos q hq]
    rfl
  have hs1 : Sync (⟨st.nodes, aset st.kmap e k, st.imap⟩ : PQS κ V) := by
    refine ⟨hnd, hik, ?_, hpos, hidom, ?_⟩
    · show (mapKeys (aset st.kmap e k)).Nodup
      rw [mapKeys_aset]
      exact hkk
    · intro v
      show (alookup (aset st.kmap e k) v).isSome = true ↔ v ∈ st.nodes
      rcases eq_or_ne v e with rfl | hve
      · rw [alookup_aset_eq _ ((hkdom v).mpr hmem)]
        simp only [Option.isSome_some, true_iff]
        exact hmem
      · rw [alookup_aset_ne _ hve]
        exact hkdom v
  by_cases hmin : isMin
  · rw [if_pos hmin]
    apply Sync_pqUpF _ _ _ _ hs1
    rw [hidx]
    exact hq
  · rw [if_neg hmin]
    exact Sync_pqSiftF (pqComp_CompOK isMin _) _ _ _ hs1

theorem ReachPQ_Sync {A : Nat} {isLf : Nat → Nat → Bool} {isMin : Bool}
    {st : PQS κ V} (h : ReachPQ A isLf isMin st) : Sync st := by
  induction h with
  | ctor keys vals already hlen hnd => exact Sync_pqMakeCore already keys vals hnd
  | push st k e h hfresh ih => exact Sync_pqPush ih k hfresh
  | pop st h hne ih => exact Sync_pqPopCore ih hne
  | upd st k e h hmem ih => exact Sync_pqUpdateKeyCore ih k hmem

/-! ### The heap property at the `PriorityQueue` level -/

theorem keyRel_of_pqComp_false {isMin : Bool} {m : List (V × κ)} {a b : V}
    (h : pqComp isMin m a b = false) :
    keyRel isMin (kGet m a) (kGet m b) := by
  cases isMin with
  | true =>
    simp only [pqComp, if_true, decide_eq_false_iff_not, not_lt] at h
    simpa [keyRel] using h
  | false =>
    simp only [pqComp, Bool.false_eq_true, if_false,
      decide_eq_false_iff_not, not_lt] at h
    simpa [keyRel] using h

theorem pqComp_congr {isMin : Bool} {m m' : List (V × κ)} {a b : V}
    (ha : alookup m' a = alookup m a) (hb : alookup m' b = alookup m b) :
    pqComp isMin m' a b = pqComp isMin m a b := by
  rw [pqComp, pqComp, kGet, kGet, kGet, kGet, ha, hb]

theorem pqBuildAux_nodes {A : Nat} {isLf : Nat → Nat → Bool}
    {comp : V → V → Bool} :
    ∀ (m : Nat) (st : PQS κ V),
      (pqBuildAux A isLf comp m st).nodes = buildAux A isLf comp m st.nodes
  | 0, st => rfl
  | m + 1, st => by
    rw [pqBuildAux, buildAux, pqBuildAux_nodes m, pqSiftF_nodes]

theorem pqBuildAux_kmap {A : Nat} {isLf : Nat → Nat → Bool}
    {comp : V → V → Bool} :
    ∀ (m : Nat) (st : PQS κ V), (pqBuildAux A isLf comp m st).kmap = st.kmap
  | 0, st => rfl
  | m + 1, st => by
    rw [pqBuildAux, pqBuildAux_kmap m, pqSiftF_kmap]

theorem pqMakeCore_kmap {A : Nat} {isLf : Nat → Nat → Bool} {isMin : Bool}
    (already : Bool) (keys : List κ) (vals : List V) :
    (pqMakeCore A isLf isMin already keys vals).kmap =
      buildKeyMap keys vals := by
  rw [pqMakeCore]
  by_cases hb : already
  · simp [hb]
  · simp only [hb, Bool.false_eq_true, if_false]
    rw [pqBuildAux_kmap]

theorem pqMakeCore_heapProp {A : Nat} (hA : 0 < A)
    {isLf : Nat → Nat → Bool} {isMin : Bool} (keys : List κ) (vals : List V)
    (hs : LeafSoundAt A isLf vals.length) :
    heapProp A (pqComp isMin (buildKeyMap keys vals))
      (pqMakeCore A isLf isMin false keys vals).nodes := by
  rw [pqMakeCore]
  simp only [Bool.false_eq_true, if_false]
  rw [pqBuildAux_nodes]
  exact buildHeapL_heapProp hA (pqComp_CompOK isMin _) vals hs

theorem pqPopCore_kmap {A : Nat} {isLf : Nat → Nat → Bool} {isMin : Bool}
    (st : PQS κ V) :
    (pqPopCore A isLf isMin st).kmap =
      aerase st.kmap (nget st.nodes 0) := by
  rw [pqPopCore]
  by_cases h0 : 0 < ((st.nodes.set 0 (st.nodes.getLastD default)).dropLast).length
  · rw [if_pos h0, pqSiftF_kmap]
  · rw [if_neg h0]

theorem siftF_nil {A : Nat} {isLf : Nat → Nat → Bool} {comp : V → V → Bool} :
    ∀ (fuel i : Nat), siftF A isLf comp fuel ([] : List V) i = []
  | 0, i => rfl
  | fuel + 1, i => by
    rw [siftF]
    have hpick : pick A comp ([] : List V) i = i :=
      pick_eq_of_no_sons (by simp)
    by_cases hlf : isLf 0 i
    · simp [hlf]
    · simp [hlf, hpick]

theorem pqPopCore_nodes {A : Nat} {isLf : Nat → Nat → Bool} {isMin : Bool}
    (st : PQS κ V) :
    (pqPopCore A isLf isMin st).nodes =
      siftF A isLf (pqComp isMin (aerase st.kmap (nget st.nodes 0)))
        (((st.nodes.set 0 (st.nodes.getLastD default)).dropLast).length + 1)
        ((st.nodes.set 0 (st.nodes.getLastD default)).dropLast) 0 := by
  rw [pqPopCore]
  set ns1 := (st.nodes.set 0 (st.nodes.getLastD default)).dropLast with hns1
  by_cases h0 : 0 < ns1.length
  · rw [if_pos h0, pqSiftF_nodes]
  · rw [if_neg h0]
    have hnil : ns1 = [] := by
      rcases List.eq_nil_or_concat ns1 with h | ⟨a, b, h⟩
      · exact h
      · rw [h] at h0
        simp at h0
    rw [hnil, siftF_nil]

theorem pqPopCore_heapProp {A : Nat} (hA : 0 < A) {isLf : Nat → Nat → Bool}
    {isMin : Bool} {st : PQS κ V} (hsync : Sync st)
    (hs : LeafSoundAt A isLf (st.nodes.length - 1)) (hne : st.nodes ≠ [])
    (h : heapProp A (pqComp isMin st.kmap) st.nodes) :
    heapProp A (pqComp isMin (pqPopCore A isLf isMin st).kmap)
      (pqPopCore A isLf isMin st).nodes := by
  obtain ⟨hnd, _, _, _, _, _⟩ := hsync
  have hlenpos : 0 < st.nodes.length := List.length_pos.mpr hne
  rw [pqPopCore_kmap, pqPopCore_nodes]
  set root := nget st.nodes 0 with hroot
  set kmap1 := aerase st.kmap root with hkmap1
  set ns1 := (st.nodes.set 0 (st.nodes.getLastD default)).dropLast with hns1
  have hlen1 : ns1.length = st.nodes.length - 1 := by simp [hns1]
  -- a comparator evaluation between non-root elements of the old vector is
  -- unchanged by erasing the root's key
  have hcompeq : ∀ p q, 0 < p → p < st.nodes.length → 0 < q →
      q < st.nodes.length →
      pqComp isMin kmap1 (nget st.nodes p) (nget st.nodes q) =
        pqComp isMin st.kmap (nget st.nodes p) (nget st.nodes q) := by
    intro p q hp hplen hq hqlen
    apply pqComp_congr
    · rw [hkmap1]
      apply alookup_aerase_ne
      intro hcontra
      have := nodup_nget_inj hnd hplen hlenpos hcontra
      omega
    · rw [hkmap1]
      apply alookup_aerase_ne
      intro hcontra
      have := nodup_nget_inj hnd hqlen hlenpos hcontra
      omega
  rw [siftF_bridge _ _ _ (by rw [hlen1]; exact hs)]
  rw [heapProp_iff_subHeap_zero hA]
  apply siftF_subHeap hA (pqComp_CompOK isMin _) _ _ _ (by omega)
  intro j hj hlen
  intro c hclen hdesc hcne
  have hcge : A * 0 + j + 1 ≤ c := hdesc.le hA
  have hpar : Desc A (A * 0 + j + 1) ((c - 1) / A) := Desc_parent hA hdesc hcne
  have hparge : A * 0 + j + 1 ≤ (c - 1) / A := hpar.le hA
  have hparlt : (c - 1) / A < c := by
    have := Nat.div_le_self (c - 1) A
    omega
  rw [hlen1] at hclen
  rw [pop_shrunk_nget (by omega) hclen,
    pop_shrunk_nget (by omega) (by omega)]
  rw [hcompeq _ _ (by omega) (by omega) (by omega) (by omega)]
  exact h c (by omega) (by omega)

theorem pqPopCore_nodes_perm {A : Nat} {isLf : Nat → Nat → Bool}
    {isMin : Bool} {st : PQS κ V} {r : V} {t : List V}
    (hcons : st.nodes = r :: t) :
    ((pqPopCore A isLf isMin st).nodes).Perm t := by
  rw [pqPopCore_nodes, hcons]
  exact (siftF_perm (pqComp_CompOK isMin _) _ _ _).trans (pop_shrunk_perm r t)

theorem pqPopAllF_spec {A : Nat} (hA : 0 < A) {isLf : Nat → Nat → Bool}
    {isMin : Bool} :
    ∀ (fuel : Nat) (st : PQS κ V), st.nodes.length ≤ fuel →
      (∀ L, L < st.nodes.length → LeafSoundAt A isLf L) →
      Sync st → heapProp A (pqComp isMin st.kmap) st.nodes →
      ((pqPopAllF A isLf isMin fuel st).map Prod.snd).Perm st.nodes ∧
        (∀ p ∈ pqPopAllF A isLf isMin fuel st,
          p.1 = kGet st.kmap p.2) ∧
        List.Pairwise (fun p q => keyRel isMin p.1 q.1)
          (pqPopAllF A isLf isMin fuel st)
  | 0, st, hfuel, hsl, hsync, h => by
    have : st.nodes = [] := List.length_eq_zero.mp (by omega)
    rw [pqPopAllF]
    refine ⟨by rw [this]; exact List.Perm.refl _, by simp, List.Pairwise.nil⟩
  | fuel + 1, st, hfuel, hsl, hsync, h => by
    rw [pqPopAllF]
    by_cases hne : st.nodes.isEmpty
    · simp only [hne, if_true]
      rw [List.isEmpty_iff.mp hne]
      exact ⟨List.Perm.refl _, by simp, List.Pairwise.nil⟩
    · simp only [hne, Bool.false_eq_true, if_false]
      have hnsne : st.nodes ≠ [] := by
        intro hh
        rw [hh] at hne
        simp at hne
      have hlenpos : 0 < st.nodes.length := List.length_pos.mpr hnsne
      obtain ⟨r, t, hcons⟩ := List.exists_cons_of_ne_nil hnsne
      have hroot : nget st.nodes 0 = r := by rw [hcons]; rfl
      have hrnott : r ∉ t := by
        have := hsync.1
        rw [hcons] at this
        exact (List.nodup_cons.mp this).1
      set st' := pqPopCore A isLf isMin st with hst'
      have hperm' : st'.nodes.Perm t := pqPopCore_nodes_perm hcons
      have hlen' : st'.nodes.length = t.length := hperm'.length_eq
      have hrec := pqPopAllF_spec hA fuel st'
        (by rw [hlen']; rw [hcons] at hfuel; simpa using Nat.le_of_succ_le_succ hfuel)
        (by
          intro L hL
          rw [hlen'] at hL
          apply hsl L
          rw [hcons]
          simpa using Nat.lt_succ_of_lt hL)
        (Sync_pqPopCore hsync hnsne)
        (pqPopCore_heapProp hA hsync
          (hsl _ (by omega)) hnsne h)
      have hkmap' : st'.kmap = aerase st.kmap r := by
        rw [hst', pqPopCore_kmap, hroot]
      refine ⟨?_, ?_, ?_⟩
      · rw [List.map_cons]
        refine (hrec.1.cons (pqTopKV st).2).trans ?_
        rw [show (pqTopKV st).2 = nget st.nodes 0 from rfl, hroot, hcons]
        exact hperm'.cons r
      · intro p hp
        rcases List.mem_cons.mp hp with rfl | hp2
        · rfl
        · have hval := hrec.2.1 p hp2
          have hpmem : p.2 ∈ t := by
            have : p.2 ∈ (pqPopAllF A isLf isMin fuel st').map Prod.snd :=
              List.mem_map_of_mem Prod.snd hp2
            exact hperm'.mem_iff.mp (hrec.1.mem_iff.mp this)
          have hpne : p.2 ≠ r := by
            intro hcontra
            rw [hcontra] at hpmem
            exact hrnott hpmem
          rw [hval, hkmap', kGet, alookup_aerase_ne _ hpne, ← kGet]
      · refine List.Pairwise.cons ?_ hrec.2.2
        intro q hq
        have hqval := hrec.2.1 q hq
        have hqmem : q.2 ∈ t := by
          have : q.2 ∈ (pqPopAllF A isLf isMin fuel st').map Prod.snd :=
            List.mem_map_of_mem Prod.snd hq
          exact hperm'.mem_iff.mp (hrec.1.mem_iff.mp this)
        have hqne : q.2 ≠ r := by
          intro hcontra
          rw [hcontra] at hqmem
          exact hrnott hqmem
        have hqmem2 : q.2 ∈ st.nodes := by
          rw [hcons]
          exact List.mem_cons_of_mem r hqmem
        obtain ⟨idx, hidx, hidxval⟩ := nget_index_of_mem hqmem2
        have hcompf : pqComp isMin st.kmap (nget st.nodes 0)
            (nget st.nodes idx) = false :=
          heapProp_root_min hA (pqComp_CompOK isMin _) h idx hidx
        have hkr := keyRel_of_pqComp_false hcompf
        rw [hidxval] at hkr
        have hq2 : kGet (aerase st.kmap r) q.2 = kGet st.kmap q.2 := by
          rw [kGet, kGet, alookup_aerase_ne _ hqne]
        show keyRel isMin (kGet st.kmap (nget st.nodes 0)) q.1
        rw [hqval, hkmap', hq2]
        exact hkr

/-! ### Soundness of the two `is_leaf` implementations -/

theorem bIsLeaf_sound (len : Nat) : LeafSoundAt 2 bIsLeaf len := by
  intro i h
  rw [bIsLeaf, decide_eq_true_eq] at h
  omega

theorem sub64_eq_of_le {len : Nat} (h2 : 2 ≤ len) (hlen : len < 2 ^ 64) :
    sub64 len 2 = len - 2 := by
  rw [sub64]
  have h1 : len + 2 ^ 64 - 2 = (len - 2) + 2 ^ 64 := by omega
  rw [h1, Nat.add_mod_right]
  exact Nat.mod_eq_of_lt (by omega)

theorem kIsLeaf_sound {K len : Nat} (hK : 0 < K) (hlen : len < 2 ^ 64) :
    LeafSoundAt K (kIsLeaf K) len := by
  intro i h
  rw [kIsLeaf, decide_eq_true_eq] at h
  intro hlt
  rcases Nat.lt_or_ge len 2 with h2 | h2
  · have : 1 ≤ K * i + 1 := by omega
    omega
  · rw [sub64_eq_of_le h2 hlen] at h
    set q := (len - 2) / K with hq
    have hmono : K * (q + 1) ≤ K * i := Nat.mul_le_mul_left K (by omega)
    have hexp : K * (q + 1) = K * q + K := by ring
    have hdm : K * q + (len - 2) % K = len - 2 := Nat.div_add_mod (len - 2) K
    have hmod : (len - 2) % K < K := Nat.mod_lt _ hK
    omega

/-! ### `update_key` in a min queue: key overwrite and single sift-up -/

theorem pqCompMin_false_iff (m : List (V × κ)) (a b : V) :
    pqComp true m a b = false ↔ kGet m a ≤ kGet m b := by
  simp [pqComp, not_lt]

theorem kGet_aset_self {m : List (V × κ)} {e : V} (k : κ)
    (h : (alookup m e).isSome = true) : kGet (aset m e k) e = k := by
  rw [kGet, alookup_aset_eq _ h]
  rfl

theorem kGet_aset_ne {m : List (V × κ)} {e x : V} (k : κ) (h : x ≠ e) :
    kGet (aset m e k) x = kGet m x := by
  rw [kGet, kGet, alookup_aset_ne _ h]

theorem pqUpdateKeyCore_kmap {A : Nat} {isLf : Nat → Nat → Bool}
    {isMin : Bool} (k : κ) (e : V) (st : PQS κ V) :
    (pqUpdateKeyCore A isLf isMin k e st).kmap = aset st.kmap e k := by
  rw [pqUpdateKeyCore]
  by_cases hmin : isMin
  · rw [if_pos hmin, pqUpF_kmap]
  · rw [if_neg hmin, pqSiftF_kmap]

theorem pqUpdateKeyCore_nodes_min {A : Nat} {isLf : Nat → Nat → Bool}
    (k : κ) (e : V) (st : PQS κ V) :
    (pqUpdateKeyCore A isLf true k e st).nodes =
      upF A (pqComp true (aset st.kmap e k))
        ((alookup st.imap e).getD 0 + 1) st.nodes
        ((alookup st.imap e).getD 0) := by
  rw [pqUpdateKeyCore, if_pos rfl, pqUpF_nodes]

theorem pqUpdateKeyCore_nodes_perm {A : Nat} {isLf : Nat → Nat → Bool}
    {isMin : Bool} {st : PQS κ V} (hsync : Sync st) (k : κ) {e : V}
    (hmem : e ∈ st.nodes) :
    ((pqUpdateKeyCore A isLf isMin k e st).nodes).Perm st.nodes := by
  obtain ⟨q, hq, hqval⟩ := nget_index_of_mem hmem
  have hidx : (alookup st.imap e).getD 0 = q := by
    rw [← hqval, Sync_nodes_pos hsync hq]
    rfl
  rw [pqUpdateKeyCore]
  by_cases hmin : isMin
  · rw [if_pos hmin, pqUpF_nodes]
    show (upF A _ _ st.nodes ((alookup st.imap e).getD 0)).Perm st.nodes
    rw [hidx]
    exact upF_perm _ _ _ hq
  · rw [if_neg hmin, pqSiftF_nodes]
    exact siftF_perm (pqComp_CompOK isMin _) _ _ _

theorem pqUpdateKeyCore_heapProp_min {A : Nat} (hA : 0 < A)
    {isLf : Nat → Nat → Bool} {st : PQS κ V} (hsync : Sync st)
    (h : heapProp A (pqComp true st.kmap) st.nodes) {e : V}
    (hmem : e ∈ st.nodes) {k : κ} (hdec : k ≤ kGet st.kmap e) :
    heapProp A (pqComp true (aset st.kmap e k))
      (pqUpdateKeyCore A isLf true k e st).nodes := by
  have hnd := hsync.1
  have hksome : (alookup st.kmap e).isSome = true :=
    (hsync.2.2.2.2.2 e).mpr hmem
  obtain ⟨q, hq, hqval⟩ := nget_index_of_mem hmem
  have hidx : (alookup st.imap e).getD 0 = q := by
    rw [← hqval, Sync_nodes_pos hsync hq]
    rfl
  rw [pqUpdateKeyCore_nodes_min, hidx]
  set km1 := aset st.kmap e k with hkm1
  have hget_e : kGet km1 e = k := kGet_aset_self k hksome
  have hget_ne : ∀ x, x ≠ e → kGet km1 x = kGet st.kmap x := by
    intro x hx
    exact kGet_aset_ne k hx
  have hval_ne : ∀ p, p < st.nodes.length → p ≠ q →
      nget st.nodes p ≠ e := by
    intro p hp hpq hcontra
    rw [← hqval] at hcontra
    exact hpq (nodup_nget_inj hnd hp hq hcontra)
  have hold : ∀ c, c < st.nodes.length → 0 < c →
      kGet st.kmap (nget st.nodes ((c - 1) / A)) ≤
        kGet st.kmap (nget st.nodes c) := by
    intro c hc hc0
    exact (pqCompMin_false_iff _ _ _).mp (h c hc hc0)
  apply upF_heapProp hA (pqComp_CompOK true _) _ _ _ (Nat.lt_succ_self q) hq
  · -- pairs away from q still hold under the decreased key
    intro c hclen hc0 hcq
    rw [pqCompMin_false_iff]
    have hvc : kGet km1 (nget st.nodes c) = kGet st.kmap (nget st.nodes c) :=
      hget_ne _ (hval_ne c hclen hcq)
    rcases eq_or_ne ((c - 1) / A) q with hpar | hpar
    · -- c is a child of the updated element: its key only got smaller
      rw [hpar, hqval, hget_e, hvc]
      calc k ≤ kGet st.kmap e := hdec
        _ = kGet st.kmap (nget st.nodes ((c - 1) / A)) := by
          rw [hpar, hqval]
        _ ≤ kGet st.kmap (nget st.nodes c) := hold c hclen hc0
    · have hparlen : (c - 1) / A < st.nodes.length := by
        have := Nat.div_le_self (c - 1) A
        omega
      rw [hvc, hget_ne _ (hval_ne _ hparlen hpar)]
      exact hold c hclen hc0
  · -- the grandparent still dominates the children of q
    intro hq0 c hclen hparc
    rw [pqCompMin_false_iff]
    have hgplt : (q - 1) / A < q :=
      lt_of_le_of_lt (Nat.div_le_self _ _)
        (Nat.pred_lt (Nat.pos_iff_ne_zero.mp hq0))
    have hgplen : (q - 1) / A < st.nodes.length := lt_trans hgplt hq
    have hc0 : 0 < c := by
      rcases Nat.eq_zero_or_pos c with rfl | hcz
      · rw [Nat.zero_sub, Nat.zero_div] at hparc
        omega
      · exact hcz
    have hpc : q < c := by
      have hple : q ≤ c - 1 := by
        rw [← hparc]
        exact Nat.div_le_self _ _
      omega
    rw [hget_ne _ (hval_ne _ hgplen (Nat.ne_of_lt hgplt)),
      hget_ne _ (hval_ne _ hclen (Ne.symm (Nat.ne_of_lt hpc)))]
    have h1 : kGet st.kmap (nget st.nodes ((q - 1) / A)) ≤
        kGet st.kmap (nget st.nodes q) := hold q hq hq0
    have h2 : kGet st.kmap (nget st.nodes q) ≤
        kGet st.kmap (nget st.nodes c) := by
      have := hold c hclen hc0
      rwa [hparc] at this
    exact le_trans h1 h2

/-! ### Remaining auxiliary facts for the claims -/

theorem Sync_mem_iff {st : PQS κ V} (hs : Sync st) :
    (∀ v : V, v ∈ mapKeys st.imap ↔ v ∈ st.nodes) ∧
      (∀ v : V, v ∈ mapKeys st.kmap ↔ v ∈ st.nodes) := by
  obtain ⟨hnd, hik, hkk, hpos, hidom, hkdom⟩ := hs
  constructor
  · intro v
    constructor
    · intro h
      exact hidom v ((alookup_isSome_iff _ _).mpr h)
    · intro h
      obtain ⟨p, hp, hval⟩ := nget_index_of_mem h
      rw [← alookup_isSome_iff, ← hval, hpos p hp]
      rfl
  · intro v
    constructor
    · intro h
      exact (hkdom v).mp ((alookup_isSome_iff _ _).mpr h)
    · intro h
      rw [← alookup_isSome_iff]
      exact (hkdom v).mpr h

theorem nodup_len_eq_of_mem_iff {l1 l2 : List V} (h1 : l1.Nodup)
    (h2 : l2.Nodup) (h : ∀ v, v ∈ l1 ↔ v ∈ l2) : l1.length = l2.length := by
  have hs1 : l1.Subperm l2 := h1.subperm (fun x hx => (h x).mp hx)
  have hs2 : l2.Subperm l1 := h2.subperm (fun x hx => (h x).mpr hx)
  exact le_antisymm hs1.length_le hs2.length_le

theorem Sync_card {st : PQS κ V} (hs : Sync st) :
    st.imap.length = st.nodes.length ∧ st.kmap.length = st.nodes.length := by
  have hmk : ∀ {α : Type} (m : List (V × α)), (mapKeys m).length = m.length :=
    fun m => List.length_map m Prod.fst
  constructor
  · rw [← hmk st.imap]
    exact nodup_len_eq_of_mem_iff hs.2.1 hs.1 (Sync_mem_iff hs).1
  · rw [← hmk st.kmap]
    exact nodup_len_eq_of_mem_iff hs.2.2.1 hs.1 (Sync_mem_iff hs).2

theorem pqSiftF_eq_self_of_heapProp {A : Nat} (hA : 0 < A)
    {isLf : Nat → Nat → Bool} {comp : V → V → Bool} (hc : CompOK comp)
    {st : PQS κ V} (h : heapProp A comp st.nodes) :
    ∀ (fuel i : Nat), pqSiftF A isLf comp fuel st i = st
  | 0, i => rfl
  | fuel + 1, i => by
    rw [pqSiftF]
    by_cases hlf : isLf st.nodes.length i
    · simp [hlf]
    · simp [hlf, pick_eq_of_heapProp hA hc h i]

theorem pqBuildAux_eq_self_of_heapProp {A : Nat} (hA : 0 < A)
    {isLf : Nat → Nat → Bool} {comp : V → V → Bool} (hc : CompOK comp)
    {st : PQS κ V} (h : heapProp A comp st.nodes) :
    ∀ (m : Nat), pqBuildAux A isLf comp m st = st
  | 0 => rfl
  | m + 1 => by
    rw [pqBuildAux, pqSiftF_eq_self_of_heapProp hA hc h,
      pqBuildAux_eq_self_of_heapProp hA hc h m]

theorem siftF_zero_noop {A : Nat} {isLf : Nat → Nat → Bool}
    {comp : V → V → Bool} {ns : List V} (h : ¬(A * 0 + 1 < ns.length)) :
    ∀ fuel : Nat, siftF A isLf comp fuel ns 0 = ns
  | 0 => rfl
  | fuel + 1 => by
    rw [siftF]
    have hpick : pick A comp ns 0 = 0 := pick_eq_of_no_sons h
    by_cases hlf : isLf ns.length 0
    · simp [hlf]
    · simp [hlf, hpick]

theorem pqMakeCore_nodes_false {A : Nat} {isLf : Nat → Nat → Bool}
    {isMin : Bool} (keys : List κ) (vals : List V) :
    (pqMakeCore A isLf isMin false keys vals).nodes =
      buildHeapL A isLf (pqComp isMin (buildKeyMap keys vals)) vals := by
  rw [pqMakeCore]
  simp only [Bool.false_eq_true, if_false]
  rw [pqBuildAux_nodes, buildHeapL]

/-! ### The claims -/

/-- C1: a min binary priority queue built from finitely many distinctly-keyed
elements pops every stored element exactly once in non-decreasing key order (a
max queue in non-increasing order, via `keyRel`), and the queue built from
keys `[5,4,1,3,6,0,2]` and values `m i n h e a p` pops exactly
`(0,a) (1,n) (2,p) (3,h) (4,i) (5,m) (6,e)`. -/
theorem C1_sorted_extraction (isMin : Bool) (keys : List κ) (vals : List V)
    (hlen : keys.length = vals.length) (hnd : vals.Nodup)
    (hknd : keys.Nodup) :
    (((pqPopAll 2 bIsLeaf isMin
        (pqMakeCore 2 bIsLeaf isMin false keys vals)).map Prod.snd).Perm
          vals ∧
      List.Pairwise (fun p q => keyRel isMin p.1 q.1)
        (pqPopAll 2 bIsLeaf isMin
          (pqMakeCore 2 bIsLeaf isMin false keys vals))) ∧
    pqPopAll 2 bIsLeaf true (pqMakeCore 2 bIsLeaf true false
      [5, 4, 1, 3, 6, 0, 2] ['m', 'i', 'n', 'h', 'e', 'a', 'p']) =
      [(0, 'a'), (1, 'n'), (2, 'p'), (3, 'h'), (4, 'i'), (5, 'm'), (6, 'e')] := by
  constructor
  · have hsync : Sync (pqMakeCore 2 bIsLeaf isMin false keys vals) :=
      Sync_pqMakeCore false keys vals hnd
    have hheap : heapProp 2
        (pqComp isMin (pqMakeCore 2 bIsLeaf isMin false keys vals).kmap)
        (pqMakeCore 2 bIsLeaf isMin false keys vals).nodes := by
      rw [pqMakeCore_kmap]
      exact pqMakeCore_heapProp (by omega) keys vals (bIsLeaf_sound _)
    obtain ⟨hperm, hkeys, hpair⟩ :=
      pqPopAllF_spec (by omega)
        (pqMakeCore 2 bIsLeaf isMin false keys vals).nodes.length
        (pqMakeCore 2 bIsLeaf isMin false keys vals) (le_refl _)
        (fun L _ => bIsLeaf_sound L) hsync hheap
    constructor
    · refine hperm.trans ?_
      rw [pqMakeCore_nodes_false, buildHeapL]
      exact buildAux_perm (pqComp_CompOK isMin _) _ _
    · exact hpair
  · decide

theorem C1_sorted_extraction_witness :
    ([5, 4, 1, 3, 6, 0, 2] : List Nat).length =
      (['m', 'i', 'n', 'h', 'e', 'a', 'p'] : List Char).length ∧
    (['m', 'i', 'n', 'h', 'e', 'a', 'p'] : List Char).Nodup ∧
    ([5, 4, 1, 3, 6, 0, 2] : List Nat).Nodup ∧
    ((((pqPopAll 2 bIsLeaf true (pqMakeCore 2 bIsLeaf true false
          [5, 4, 1, 3, 6, 0, 2] ['m', 'i', 'n', 'h', 'e', 'a', 'p'])).map
            Prod.snd).Perm ['m', 'i', 'n', 'h', 'e', 'a', 'p'] ∧
        List.Pairwise (fun p q => keyRel true p.1 q.1)
          (pqPopAll 2 bIsLeaf true (pqMakeCore 2 bIsLeaf true false
            [5, 4, 1, 3, 6, 0, 2] ['m', 'i', 'n', 'h', 'e', 'a', 'p']))) ∧
      pqPopAll 2 bIsLeaf true (pqMakeCore 2 bIsLeaf true false
        [5, 4, 1, 3, 6, 0, 2] ['m', 'i', 'n', 'h', 'e', 'a', 'p']) =
        [(0, 'a'), (1, 'n'), (2, 'p'), (3, 'h'), (4, 'i'), (5, 'm'),
          (6, 'e')]) :=
  ⟨by decide, by decide, by decide,
    C1_sorted_extraction true [5, 4, 1, 3, 6, 0, 2]
      ['m', 'i', 'n', 'h', 'e', 'a', 'p'] (by decide) (by decide) (by decide)⟩

/-- C2: the claim fails on the code. In a max priority queue, `update_key`
with a larger key (the direction the documentation allows) runs
`heapify_down`, which cannot repair the violated parent pair: updating key
`5 → 20` of element `b` in the max queue `[(10,a),(5,b)]` leaves the heap
property false and the subsequent pops come out in increasing key order
`(10,a),(20,b)` instead of non-increasing order. -/
theorem C2_max_update_key_breaks_heap :
    ¬heapProp 2
      (pqComp false (pqUpdateKeyCore 2 bIsLeaf false 20 'b'
        (pqMakeCore 2 bIsLeaf false false [10, 5] ['a', 'b'])).kmap)
      (pqUpdateKeyCore 2 bIsLeaf false 20 'b'
        (pqMakeCore 2 bIsLeaf false false [10, 5] ['a', 'b'])).nodes ∧
    pqPopAll 2 bIsLeaf false (pqUpdateKeyCore 2 bIsLeaf false 20 'b'
      (pqMakeCore 2 bIsLeaf false false [10, 5] ['a', 'b'])) =
      [(10, 'a'), (20, 'b')] := by
  exact ⟨by decide, by decide⟩

/-- C3: in every reachable priority-queue state (any arity, any polarity,
distinct elements), the key sets of `key_map` and `index_map` both coincide
with the elements of the backing vector, their cardinalities equal `size()`,
and `index_map[e]` is the actual position of `e`. -/
theorem C3_map_heap_consistency {A : Nat} {isLf : Nat → Nat → Bool}
    {isMin : Bool} (st : PQS κ V) (h : ReachPQ A isLf isMin st) :
    (∀ v : V, v ∈ mapKeys st.kmap ↔ v ∈ st.nodes) ∧
    (∀ v : V, v ∈ mapKeys st.imap ↔ v ∈ st.nodes) ∧
    st.kmap.length = st.nodes.length ∧
    st.imap.length = st.nodes.length ∧
    (∀ p, p < st.nodes.length → alookup st.imap (nget st.nodes p) = some p) := by
  have hs := ReachPQ_Sync h
  exact ⟨(Sync_mem_iff hs).2, (Sync_mem_iff hs).1, (Sync_card hs).2,
    (Sync_card hs).1, hs.2.2.2.1⟩

theorem C3_map_heap_consistency_witness :
    ReachPQ 2 bIsLeaf true
      (pqMakeCore 2 bIsLeaf true false [2, 1] (['a', 'b'] : List Char)) ∧
    ((∀ v : Char, v ∈ mapKeys (pqMakeCore 2 bIsLeaf true false [2, 1]
        (['a', 'b'] : List Char)).kmap ↔
        v ∈ (pqMakeCore 2 bIsLeaf true false [2, 1]
          (['a', 'b'] : List Char)).nodes) ∧
      (∀ v : Char, v ∈ mapKeys (pqMakeCore 2 bIsLeaf true false [2, 1]
        (['a', 'b'] : List Char)).imap ↔
        v ∈ (pqMakeCore 2 bIsLeaf true false [2, 1]
          (['a', 'b'] : List Char)).nodes) ∧
      (pqMakeCore 2 bIsLeaf true false [2, 1]
        (['a', 'b'] : List Char)).kmap.length =
        (pqMakeCore 2 bIsLeaf true false [2, 1]
          (['a', 'b'] : List Char)).nodes.length ∧
      (pqMakeCore 2 bIsLeaf true false [2, 1]
        (['a', 'b'] : List Char)).imap.length =
        (pqMakeCore 2 bIsLeaf true false [2, 1]
          (['a', 'b'] : List Char)).nodes.length ∧
      (∀ p, p < (pqMakeCore 2 bIsLeaf true false [2, 1]
          (['a', 'b'] : List Char)).nodes.length →
        alookup (pqMakeCore 2 bIsLeaf true false [2, 1]
          (['a', 'b'] : List Char)).imap
          (nget (pqMakeCore 2 bIsLeaf true false [2, 1]
            (['a', 'b'] : List Char)).nodes p) = some p)) :=
  ⟨ReachPQ.ctor [2, 1] ['a', 'b'] false (by decide) (by decide),
    C3_map_heap_consistency _
      (ReachPQ.ctor [2, 1] ['a', 'b'] false (by decide) (by decide))⟩

/-- C4: in a consistent min binary priority queue, `update_key` with a key
that is smaller than or equal to the current one overwrites `key_map` at the
element, performs exactly one `heapify_up` from the element's current index,
and restores the heap property; the 7-element example with keys
`[0,2,4,6,8,10,12]` over `m i n h e a p` after `update_key(5,e)` and
`update_key(1,p)` pops exactly
`(0,m) (1,p) (2,i) (4,n) (5,e) (6,h) (10,a)`. -/
theorem C4_update_key_min (st : PQS κ V) (hsync : Sync st)
    (h : heapProp 2 (pqComp true st.kmap) st.nodes) (e : V)
    (hmem : e ∈ st.nodes) (k : κ) (hdec : k ≤ kGet st.kmap e) :
    ((pqUpdateKeyCore 2 bIsLeaf true k e st).kmap = aset st.kmap e k ∧
      (pqUpdateKeyCore 2 bIsLeaf true k e st).nodes =
        upF 2 (pqComp true (aset st.kmap e k))
          ((alookup st.imap e).getD 0 + 1) st.nodes
          ((alookup st.imap e).getD 0) ∧
      heapProp 2 (pqComp true (aset st.kmap e k))
        (pqUpdateKeyCore 2 bIsLeaf true k e st).nodes) ∧
    pqPopAll 2 bIsLeaf true
      (pqUpdateKeyCore 2 bIsLeaf true 1 'p'
        (pqUpdateKeyCore 2 bIsLeaf true 5 'e'
          (pqMakeCore 2 bIsLeaf true true [0, 2, 4, 6, 8, 10, 12]
            ['m', 'i', 'n', 'h', 'e', 'a', 'p']))) =
      [(0, 'm'), (1, 'p'), (2, 'i'), (4, 'n'), (5, 'e'), (6, 'h'),
        (10, 'a')] := by
  refine ⟨⟨pqUpdateKeyCore_kmap k e st, pqUpdateKeyCore_nodes_min k e st,
    pqUpdateKeyCore_heapProp_min (by omega) hsync h hmem hdec⟩, ?_⟩
  decide

theorem C4_update_key_min_witness :
    Sync (pqMakeCore 2 bIsLeaf true true [1, 2] (['a', 'b'] : List Char)) ∧
    heapProp 2 (pqComp true (pqMakeCore 2 bIsLeaf true true [1, 2]
        (['a', 'b'] : List Char)).kmap)
      (pqMakeCore 2 bIsLeaf true true [1, 2] (['a', 'b'] : List Char)).nodes ∧
    'b' ∈ (pqMakeCore 2 bIsLeaf true true [1, 2]
      (['a', 'b'] : List Char)).nodes ∧
    (0 : Nat) ≤ kGet (pqMakeCore 2 bIsLeaf true true [1, 2]
      (['a', 'b'] : List Char)).kmap 'b' ∧
    (((pqUpdateKeyCore 2 bIsLeaf true 0 'b'
        (pqMakeCore 2 bIsLeaf true true [1, 2]
          (['a', 'b'] : List Char))).kmap =
        aset (pqMakeCore 2 bIsLeaf true true [1, 2]
          (['a', 'b'] : List Char)).kmap 'b' 0 ∧
      (pqUpdateKeyCore 2 bIsLeaf true 0 'b'
        (pqMakeCore 2 bIsLeaf true true [1, 2]
          (['a', 'b'] : List Char))).nodes =
        upF 2 (pqComp true (aset (pqMakeCore 2 bIsLeaf true true [1, 2]
            (['a', 'b'] : List Char)).kmap 'b' 0))
          ((alookup (pqMakeCore 2 bIsLeaf true true [1, 2]
            (['a', 'b'] : List Char)).imap 'b').getD 0 + 1)
          (pqMakeCore 2 bIsLeaf true true [1, 2]
            (['a', 'b'] : List Char)).nodes
          ((alookup (pqMakeCore 2 bIsLeaf true true [1, 2]
            (['a', 'b'] : List Char)).imap 'b').getD 0) ∧
      heapProp 2 (pqComp true (aset (pqMakeCore 2 bIsLeaf true true [1, 2]
          (['a', 'b'] : List Char)).kmap 'b' 0))
        (pqUpdateKeyCore 2 bIsLeaf true 0 'b'
          (pqMakeCore 2 bIsLeaf true true [1, 2]
            (['a', 'b'] : List Char))).nodes) ∧
      pqPopAll 2 bIsLeaf true
        (pqUpdateKeyCore 2 bIsLeaf true 1 'p'
          (pqUpdateKeyCore 2 bIsLeaf true 5 'e'
            (pqMakeCore 2 bIsLeaf true true [0, 2, 4, 6, 8, 10, 12]
              ['m', 'i', 'n', 'h', 'e', 'a', 'p']))) =
        [(0, 'm'), (1, 'p'), (2, 'i'), (4, 'n'), (5, 'e'), (6, 'h'),
          (10, 'a')]) :=
  ⟨Sync_pqMakeCore true [1, 2] ['a', 'b'] (by decide), by decide, by decide,
    by decide,
    C4_update_key_min _ (Sync_pqMakeCore true [1, 2] ['a', 'b'] (by decide))
      (by decide) 'b' (by decide) 0 (by decide)⟩

/-- C5: on an input that already satisfies the heap property for the chosen
comparator, constructing with the `IsAlreadyHeap` flag set produces a state
equal to the one built with the flag unset — `build_heap` is the identity on
a valid heap — so the pop order is identical; this holds for plain heaps of
any arity and for priority queues. -/
theorem C5_already_heap_flag {A : Nat} (hA : 0 < A)
    {isLf : Nat → Nat → Bool} (comp : V → V → Bool) (hc : CompOK comp)
    {ns : List V} (hheap : heapProp A comp ns) (isMin : Bool)
    (keys : List κ) (vals : List V)
    (hpq : heapProp A (pqComp isMin (buildKeyMap keys vals)) vals) :
    mkHeapL A isLf comp true ns = mkHeapL A isLf comp false ns ∧
    popAllL A isLf comp (mkHeapL A isLf comp true ns) =
      popAllL A isLf comp (mkHeapL A isLf comp false ns) ∧
    pqMakeCore A isLf isMin true keys vals =
      pqMakeCore A isLf isMin false keys vals ∧
    pqPopAll A isLf isMin (pqMakeCore A isLf isMin true keys vals) =
      pqPopAll A isLf isMin (pqMakeCore A isLf isMin false keys vals) := by
  have h1 : mkHeapL A isLf comp true ns = mkHeapL A isLf comp false ns :=
    mkHeapL_flag_irrelevant hA hc hheap true false
  have h2 : pqMakeCore A isLf isMin true keys vals =
      pqMakeCore A isLf isMin false keys vals := by
    rw [pqMakeCore, pqMakeCore]
    simp only [if_true, Bool.false_eq_true, if_false]
    exact (pqBuildAux_eq_self_of_heapProp hA (pqComp_CompOK isMin _) hpq _).symm
  exact ⟨h1, by rw [h1], h2, by rw [h2]⟩

theorem C5_already_heap_flag_witness :
    heapProp 2 (fun a b : Char => decide (b < a)) ['a', 'b', 'c'] ∧
    heapProp 2 (pqComp true (buildKeyMap [1, 2, 3] ['a', 'b', 'c']))
      (['a', 'b', 'c'] : List Char) ∧
    (mkHeapL 2 bIsLeaf (fun a b : Char => decide (b < a)) true
        ['a', 'b', 'c'] =
      mkHeapL 2 bIsLeaf (fun a b : Char => decide (b < a)) false
        ['a', 'b', 'c'] ∧
    popAllL 2 bIsLeaf (fun a b : Char => decide (b < a))
        (mkHeapL 2 bIsLeaf (fun a b : Char => decide (b < a)) true
          ['a', 'b', 'c']) =
      popAllL 2 bIsLeaf (fun a b : Char => decide (b < a))
        (mkHeapL 2 bIsLeaf (fun a b : Char => decide (b < a)) false
          ['a', 'b', 'c']) ∧
    pqMakeCore 2 bIsLeaf true true [1, 2, 3] (['a', 'b', 'c'] : List Char) =
      pqMakeCore 2 bIsLeaf true false [1, 2, 3] ['a', 'b', 'c'] ∧
    pqPopAll 2 bIsLeaf true
        (pqMakeCore 2 bIsLeaf true true [1, 2, 3]
          (['a', 'b', 'c'] : List Char)) =
      pqPopAll 2 bIsLeaf true
        (pqMakeCore 2 bIsLeaf true false [1, 2, 3] ['a', 'b', 'c'])) :=
  ⟨by decide, by decide,
    C5_already_heap_flag (by omega) (fun a b : Char => decide (b < a))
      (by
        constructor
        · intro a b h
          simp only [decide_eq_true_eq] at h
          simp only [decide_eq_false_iff_not, not_lt]
          exact le_of_lt h
        · intro a b c h1 h2
          simp only [decide_eq_true_eq] at h1 h2 ⊢
          exact lt_trans h2 h1
        · intro a b c h1 h2
          simp only [decide_eq_false_iff_not, not_lt] at h1 h2 ⊢
          exact le_trans h1 h2)
      (by decide) true [1, 2, 3] ['a', 'b', 'c'] (by decide)⟩

/-- C6: the claim's leaf characterisation is wrong on the code. `left`,
`right` and `parent` are as stated, but `BinaryHeap::is_leaf` tests
`i ≥ size/2 + 1`, not `i ≥ size/2`: at `size = 2`, position `1` has no child
in range (`2·1+1 ≥ 2`) yet `is_leaf` classifies it as internal. The
counterexample refutes the claimed equivalence. -/
theorem C6_is_leaf_counterexample :
    bIsLeaf 2 1 = false ∧ 2 * 1 + 1 ≥ 2 ∧ (1 : Nat) ≥ 2 / 2 := by
  decide

/-- C6 (amended): `left(i) = 2i+1`, `right(i) = 2i+2`, `parent(i) = (i-1)/2`,
and the leaf test classifies `i` as a leaf exactly when `i ≥ size/2 + 1`; a
position it classifies as a leaf really has no child in range (but not
conversely: position `size/2` can be childless yet classified internal, which
is harmless since every child access in `heapify_down` is range-guarded). -/
theorem C6_index_arithmetic :
    (∀ i, bLeft i = 2 * i + 1) ∧ (∀ i, bRight i = 2 * i + 2) ∧
    (∀ i, bParent i = (i - 1) / 2) ∧
    (∀ len i, bIsLeaf len i = true ↔ len / 2 + 1 ≤ i) ∧
    (∀ len i, bIsLeaf len i = true → ¬(2 * i + 1 < len)) := by
  refine ⟨fun i => rfl, fun i => rfl, fun i => rfl, ?_, ?_⟩
  · intro len i
    rw [bIsLeaf, decide_eq_true_eq]
  · intro len i
    exact bIsLeaf_sound len i

theorem C6_index_arithmetic_witness :
    bIsLeaf 3 2 = true ∧ ¬(2 * 2 + 1 < 3) :=
  ⟨by decide, C6_index_arithmetic.2.2.2.2 3 2 (by decide)⟩

/-- C7: the `std::enable_if<(K > 2)>` constraint on `KHeap` rejects
construction with `K = 1` or `K = 2`; a K-ary heap is constructible exactly
for `K > 2`. -/
theorem C7_arity_constraint (comp : V → V → Bool) (already : Bool)
    (ns : List V) :
    kHeapMake? 1 comp already ns = none ∧
    kHeapMake? 2 comp already ns = none ∧
    (∀ K, (kHeapMake? K comp already ns).isSome = true ↔ 2 < K) := by
  refine ⟨rfl, rfl, ?_⟩
  intro K
  rw [kHeapMake?]
  by_cases hK : 2 < K
  · simp [hK]
  · simp [hK]

/-- C8: `top`/`pop` on an empty heap or queue, `update_key`/`key_at` on an
absent element, and construction from key/element sequences of different
lengths each fail fast at the call site (`assert`, `std::out_of_range`),
modelled as `none`; none of them returns a usable state. -/
theorem C8_contract_violations (A : Nat) (isLf : Nat → Nat → Bool)
    (isMin : Bool) (comp : V → V → Bool) (ns : List V) (st : PQS κ V)
    (e : V) (k : κ) (keys : List κ) (vals : List V) :
    (topL? ns = none ↔ ns = []) ∧
    (popL? A isLf comp ns = none ↔ ns = []) ∧
    (pqTop? st = none ↔ st.nodes = []) ∧
    (pqPop? A isLf isMin st = none ↔ st.nodes = []) ∧
    (pqUpdateKey? A isLf isMin k e st = none ↔
      (alookup st.imap e = none ∨ alookup st.kmap e = none)) ∧
    (pqKeyAt? st e = none ↔ alookup st.kmap e = none) ∧
    (pqMake? A isLf isMin false keys vals = none ↔
      keys.length ≠ vals.length) := by
  refine ⟨?_, ?_, ?_, ?_, ?_, Iff.rfl, ?_⟩
  · rw [topL?]
    by_cases h : ns.isEmpty
    · simp [h, List.isEmpty_iff.mp h]
    · simp only [h, Bool.false_eq_true, if_false]
      simp only [List.isEmpty_iff] at h
      simp [h]
  · rw [popL?]
    by_cases h : ns.isEmpty
    · simp [h, List.isEmpty_iff.mp h]
    · simp only [h, Bool.false_eq_true, if_false]
      simp only [List.isEmpty_iff] at h
      simp [h]
  · rw [pqTop?]
    by_cases h : st.nodes.isEmpty
    · simp [h, List.isEmpty_iff.mp h]
    · simp only [h, Bool.false_eq_true, if_false]
      simp only [List.isEmpty_iff] at h
      simp [h]
  · rw [pqPop?]
    by_cases h : st.nodes.isEmpty
    · simp [h, List.isEmpty_iff.mp h]
    · simp only [h, Bool.false_eq_true, if_false]
      simp only [List.isEmpty_iff] at h
      simp [h]
  · rw [pqUpdateKey?]
    cases h1 : alookup st.imap e <;> cases h2 : alookup st.kmap e <;> simp
  · rw [pqMake?]
    by_cases h : keys.length = vals.length
    · simp [h]
    · simp [h]

/-- C9: `Heap::pop` always runs `heapify_down(0)` after shrinking the vector,
and this is safe at every size: on a vector of length at most 1 the sift is
the identity (no swap, every child access is guarded by an in-range check),
and the root is never classified as a leaf by either implementation — in
`KHeap` because `(size - 2)/K` wraps around for `size < 2`, the comparison
`0 > …` is still false. -/
theorem C9_pop_sift_safety (comp : V → V → Bool) {ns : List V} {K : Nat}
    (hK : 2 < K) (hlen : ns.length ≤ 1) :
    (∀ ms : List V, ms ≠ [] → popL? 2 bIsLeaf comp ms =
      some (siftF 2 bIsLeaf comp (ms.length + 1)
        ((ms.set 0 (ms.getLastD default)).dropLast) 0)) ∧
    (∀ fuel, siftF 2 bIsLeaf comp fuel ns 0 = ns) ∧
    (∀ fuel, siftF K (kIsLeaf K) comp fuel ns 0 = ns) ∧
    (∀ len, kIsLeaf K len 0 = false) ∧
    (∀ len, bIsLeaf len 0 = false) := by
  refine ⟨?_, ?_, ?_, ?_, ?_⟩
  · intro ms hne
    rw [popL?, if_neg (by simpa [List.isEmpty_iff] using hne)]
    rfl
  · intro fuel
    exact siftF_zero_noop (by omega) fuel
  · intro fuel
    exact siftF_zero_noop (by omega) fuel
  · intro len
    simp [kIsLeaf]
  · intro len
    simp [bIsLeaf]

theorem C9_pop_sift_safety_witness :
    2 < 3 ∧ (['a'] : List Char).length ≤ 1 ∧
    (popL? 2 bIsLeaf (fun a b : Char => decide (b < a)) ['a'] = some [] ∧
      siftF 3 (kIsLeaf 3) (fun a b : Char => decide (b < a)) 2 ['a'] 0 =
        ['a'] ∧
      kIsLeaf 3 0 0 = false ∧ kIsLeaf 3 1 0 = false) :=
  ⟨by decide, by decide, by decide,
    (C9_pop_sift_safety (fun a b : Char => decide (b < a))
      (by decide) (by decide : (['a'] : List Char).length ≤ 1)).2.2.1 2,
    (C9_pop_sift_safety (fun a b : Char => decide (b < a))
      (by decide) (by decide : (['a'] : List Char).length ≤ 1)).2.2.2.1 0,
    (C9_pop_sift_safety (fun a b : Char => decide (b < a))
      (by decide) (by decide : (['a'] : List Char).length ≤ 1)).2.2.2.1 1⟩

/-- C10: in a consistent min priority queue, `update_key k e` changes
`key_map` at no element other than `e`, leaves the stored elements the same
up to permutation (the sift-up repair only swaps existing elements through
`swap_nodes`), and keeps `index_map` synchronized with the vector. -/
theorem C10_update_key_frame (st : PQS κ V) (hsync : Sync st) (k : κ)
    (e : V) (hmem : e ∈ st.nodes) :
    (pqUpdateKeyCore 2 bIsLeaf true k e st).kmap = aset st.kmap e k ∧
    (∀ x, x ≠ e →
      alookup (pqUpdateKeyCore 2 bIsLeaf true k e st).kmap x =
        alookup st.kmap x) ∧
    ((pqUpdateKeyCore 2 bIsLeaf true k e st).nodes).Perm st.nodes ∧
    Sync (pqUpdateKeyCore 2 bIsLeaf true k e st) := by
  refine ⟨pqUpdateKeyCore_kmap k e st, ?_, pqUpdateKeyCore_nodes_perm hsync k hmem,
    Sync_pqUpdateKeyCore hsync k hmem⟩
  intro x hx
  rw [pqUpdateKeyCore_kmap]
  exact alookup_aset_ne _ hx

theorem C10_update_key_frame_witness :
    Sync (pqMakeCore 2 bIsLeaf true true [1, 2] (['a', 'b'] : List Char)) ∧
    'b' ∈ (pqMakeCore 2 bIsLeaf true true [1, 2]
      (['a', 'b'] : List Char)).nodes ∧
    ((pqUpdateKeyCore 2 bIsLeaf true 0 'b'
        (pqMakeCore 2 bIsLeaf true true [1, 2]
          (['a', 'b'] : List Char))).kmap =
      aset (pqMakeCore 2 bIsLeaf true true [1, 2]
        (['a', 'b'] : List Char)).kmap 'b' 0 ∧
    (∀ x, x ≠ 'b' →
      alookup (pqUpdateKeyCore 2 bIsLeaf true 0 'b'
        (pqMakeCore 2 bIsLeaf true true [1, 2]
          (['a', 'b'] : List Char))).kmap x =
        alookup (pqMakeCore 2 bIsLeaf true true [1, 2]
          (['a', 'b'] : List Char)).kmap x) ∧
    ((pqUpdateKeyCore 2 bIsLeaf true 0 'b'
        (pqMakeCore 2 bIsLeaf true true [1, 2]
          (['a', 'b'] : List Char))).nodes).Perm
      (pqMakeCore 2 bIsLeaf true true [1, 2]
        (['a', 'b'] : List Char)).nodes ∧
    Sync (pqUpdateKeyCore 2 bIsLeaf true 0 'b'
      (pqMakeCore 2 bIsLeaf true true [1, 2] (['a', 'b'] : List Char)))) :=
  ⟨Sync_pqMakeCore true [1, 2] ['a', 'b'] (by decide), by decide,
    C10_update_key_frame _ (Sync_pqMakeCore true [1, 2] ['a', 'b'] (by decide))
      0 'b' (by decide)⟩

end Heaplib
